import Mathlib

/-!
Verification of the mythril-core task lifecycle engine, search relevance
engine and feedback rate limiter.  Strings are modelled as `List Char`,
timestamps as integer milliseconds, and the SQLite task store as a list of
rows in rowid (insertion) order.  Each definition below is a shallow
embedding of the correspondingly named function of the source
(`src/services/artifacts.ts`, `src/services/search.ts`,
`src/security/sanitize.ts` and the feedback service).
-/

namespace Mythril

/-- Lowercase every character (model of JavaScript `toLowerCase` for the
ASCII strings handled by this code). -/
def lowerStr (s : List Char) : List Char := s.map Char.toLower

/-- Uppercase every character (model of JavaScript `toUpperCase`). -/
def upperStr (s : List Char) : List Char := s.map Char.toUpper

/-- Boolean test that `p` is literally at the front of `s`. -/
def startsWithB : List Char → List Char → Bool
  | [], _ => true
  | _ :: _, [] => false
  | p :: ps, c :: cs => p = c && startsWithB ps cs

/-- Case-insensitive version of `startsWithB`. -/
def startsWithCI : List Char → List Char → Bool
  | [], _ => true
  | _ :: _, [] => false
  | p :: ps, c :: cs => p.toLower = c.toLower && startsWithCI ps cs

/-- Index of the first occurrence of `pat` in `text` (JavaScript
`text.indexOf(pat)`; `some 0` for the empty pattern). -/
def indexOfSub (pat : List Char) : List Char → Option Nat
  | [] => if startsWithB pat [] then some 0 else none
  | c :: cs =>
    if startsWithB pat (c :: cs) then some 0
    else (indexOfSub pat cs).map (· + 1)

/-- Case-insensitive version of `indexOfSub`. -/
def indexOfSubCI (pat : List Char) : List Char → Option Nat
  | [] => if startsWithCI pat [] then some 0 else none
  | c :: cs =>
    if startsWithCI pat (c :: cs) then some 0
    else (indexOfSubCI pat cs).map (· + 1)

/-- Containment test derived from `indexOfSub`. -/
def containsSub (pat text : List Char) : Bool := (indexOfSub pat text).isSome

/-- Word characters of the regex class `\w`, namely `[A-Za-z0-9_]`. -/
def isWordCharB (c : Char) : Bool := c.isAlphanum || c = '_'

/-- First index `i ≥ start` with `text[i] = ' '` (JavaScript
`text.indexOf(' ', start)`). -/
def indexOfSpaceFrom (text : List Char) (start : Nat) : Option Nat :=
  (List.range text.length).find? fun i =>
    decide (start ≤ i) && decide (text.getD i 'x' = ' ')

/-- Last index `i ≤ pos` with `text[i] = ' '` (JavaScript
`text.lastIndexOf(' ', pos)`). -/
def lastIndexOfSpaceLe (text : List Char) (pos : Nat) : Option Nat :=
  (List.range text.length).reverse.find? fun i =>
    decide (i ≤ pos) && decide (text.getD i 'x' = ' ')

/-! ### sanitize.ts -/

/-- Model of `sanitizeProjectName`: lowercase, then keep only
`[a-z0-9-_]` (the source replaces every other character by nothing). -/
def sanitizeProjectName (input : List Char) : List Char :=
  (input.map Char.toLower).filter fun c =>
    (('a' ≤ c && c ≤ 'z') || ('0' ≤ c && c ≤ '9') || c = '-' || c = '_')

/-- Model of `truncate`: identity when within `maxLength`, otherwise the
first `maxLength` characters. -/
def truncate (input : List Char) (maxLength : Nat) : List Char :=
  if input.length ≤ maxLength then input else input.take maxLength

/-- Helper for `sanitizeContent`: one global-replace pass removing every
case-insensitive occurrence of `pat` (used for the `javascript:` pattern;
the scan resumes after each removal, as a JavaScript global regex
replace does). -/
def removeAllCI (pat : List Char) : List Char → List Char
  | [] => []
  | c :: cs =>
    if startsWithCI pat (c :: cs) then
      removeAllCI pat (cs.drop (pat.length - 1))
    else
      c :: removeAllCI pat cs
termination_by l => l.length
decreasing_by
  · simp only [List.length_cons, List.length_drop]
    omega
  · simp

/-- Helper for `sanitizeContent`: the tag-stripping passes.  The source
regexes `<script\b[^<]*(?:(?!<\/script>)<[^<]*)*<\/script>` (and the
`iframe` twin) match, at each case-insensitive occurrence of the opening
word followed by a word boundary, up to the end of the first subsequent
case-insensitive closing tag; without a closing tag the scan moves on by
one character. -/
def stripTagPass (opening closing : List Char) : List Char → List Char
  | [] => []
  | c :: cs =>
    let boundary :=
      match (c :: cs).drop opening.length with
      | [] => true
      | d :: _ => !isWordCharB d
    if startsWithCI opening (c :: cs) && boundary then
      match indexOfSubCI closing ((c :: cs).drop opening.length) with
      | some j =>
        stripTagPass opening closing
          (cs.drop (opening.length - 1 + j + closing.length))
      | none => c :: stripTagPass opening closing cs
    else c :: stripTagPass opening closing cs
termination_by l => l.length
decreasing_by
  · simp only [List.length_cons, List.length_drop]
    omega
  · simp
  · simp

/-- Length of a match of the regex `on\w+\s*=` (case-insensitive) at the
front of the list, if any. -/
def matchOnAttr : List Char → Option Nat
  | c1 :: c2 :: rest =>
    if c1.toLower = 'o' && c2.toLower = 'n' then
      let w := (rest.takeWhile isWordCharB).length
      if w = 0 then none
      else
        let rest2 := rest.drop w
        let sp := (rest2.takeWhile Char.isWhitespace).length
        match rest2.drop sp with
        | '=' :: _ => some (2 + w + sp + 1)
        | _ => none
    else none
  | _ => none

/-- Helper for `sanitizeContent`: global-replace pass for `on\w+\s*=`. -/
def stripOnAttrPass : List Char → List Char
  | [] => []
  | c :: cs =>
    match matchOnAttr (c :: cs) with
    | some k => stripOnAttrPass (cs.drop (k - 1))
    | none => c :: stripOnAttrPass cs
termination_by l => l.length
decreasing_by
  · simp only [List.length_cons, List.length_drop]
    omega
  · simp

/-- Character list of the opening script tag. -/
def scriptOpen : List Char := ['<', 's', 'c', 'r', 'i', 'p', 't']

/-- Character list of the closing script tag. -/
def scriptClose : List Char := ['<', '/', 's', 'c', 'r', 'i', 'p', 't', '>']

/-- Character list of the opening iframe tag. -/
def iframeOpen : List Char := ['<', 'i', 'f', 'r', 'a', 'm', 'e']

/-- Character list of the closing iframe tag. -/
def iframeClose : List Char := ['<', '/', 'i', 'f', 'r', 'a', 'm', 'e', '>']

/-- Character list of the `javascript:` pattern. -/
def jsProto : List Char := ['j', 'a', 'v', 'a', 's', 'c', 'r', 'i', 'p', 't', ':']

/-- Model of `sanitizeContent`: strip script tags, iframe tags,
`javascript:` and `on...=` handlers in that order, then truncate. -/
def sanitizeContent (input : List Char) (maxLength : Nat) : List Char :=
  let s1 := stripTagPass scriptOpen scriptClose input
  let s2 := stripTagPass iframeOpen iframeClose s1
  let s3 := removeAllCI jsProto s2
  let s4 := stripOnAttrPass s3
  truncate s4 maxLength

/-! ### Task data model (types/index.ts, db schema) -/

/-- Task status enumeration. -/
inductive TaskStatus where
  | queued
  | active
  | completed
  | cancelled
deriving DecidableEq

/-- Trust level enumeration. -/
inductive TrustLevel where
  | THROWAWAY
  | PROTOTYPE
  | MATURE
deriving DecidableEq

/-- Priority enumeration. -/
inductive Priority where
  | LOW
  | NORMAL
  | HIGH
  | CRITICAL
deriving DecidableEq

/-- Row of the `tasks` table.  Timestamps are integer milliseconds; the
source stores ISO-8601 strings whose lexicographic order coincides with
chronological order. -/
structure Task where
  id : List Char
  title : List Char
  description : Option (List Char)
  project : List Char
  status : TaskStatus
  trust_level : TrustLevel
  priority : Priority
  created_at : Nat
  started_at : Option Nat
  completed_at : Option Nat
deriving DecidableEq

/-- Input of `createTask`. -/
structure CreateTaskInput where
  title : List Char
  description : Option (List Char)
  project : List Char
  trust_level : Option TrustLevel
  priority : Option Priority

/-- The task store: rows of the `tasks` table in rowid (insertion)
order. -/
abbrev TaskStore := List Task

/-! ### Task id allocation (generateTaskId) -/

/-- ASCII character of a decimal digit. -/
def digitChar (d : Nat) : Char := Char.ofNat (48 + d)

/-- Fuel-driven digit accumulator (structural recursion so that concrete
ids evaluate inside the kernel). -/
def natDigitsGo : Nat → Nat → List Char → List Char
  | 0, _, acc => acc
  | fuel + 1, n, acc =>
    if n = 0 then acc else natDigitsGo fuel (n / 10) (digitChar (n % 10) :: acc)

/-- Digit characters of a natural number, most significant first (model
of JavaScript `String(n)` for the positive sequence numbers the allocator
produces; `natDigits 0` is `[]`, which zero-padding renders as `000`
exactly as `String(0).padStart(3, '0')` would). -/
def natDigits (n : Nat) : List Char := natDigitsGo n n []

/-- Zero-pad a digit string to width 3 (JavaScript `padStart(3, '0')`). -/
def padStart3 (s : List Char) : List Char :=
  List.replicate (3 - s.length) '0' ++ s

/-- Numeric value of a digit string (most significant first). -/
def digitsVal (s : List Char) : Nat :=
  s.foldl (fun v c => v * 10 + (c.toNat - 48)) 0

/-- Value of SQLite `CAST(s AS INTEGER)`: skip leading spaces, then an
optional sign and the longest digit run; anything else yields 0. -/
def sqliteCastInt (s : List Char) : Int :=
  let t := s.dropWhile (· = ' ')
  if t.headD ' ' = '-' then -(digitsVal (t.tail.takeWhile Char.isDigit) : Int)
  else if t.headD ' ' = '+' then (digitsVal (t.tail.takeWhile Char.isDigit) : Int)
  else (digitsVal (t.takeWhile Char.isDigit) : Int)

/-- Numeric suffix matched by the source regex (a dash, then captured
digits, anchored at the end): the maximal trailing digit run, provided it
is nonempty and preceded by `'-'`. -/
def trailingNum (id : List Char) : Option Nat :=
  let revDigits := id.reverse.takeWhile Char.isDigit
  if revDigits.isEmpty then none
  else if (id.reverse.drop revDigits.length).headD ' ' = '-' then
    some (digitsVal revDigits.reverse)
  else none

/-- Task id prefix: `project.toUpperCase().slice(0, 10)`. -/
def taskPfx (project : List Char) : List Char := (upperStr project).take 10

/-- One LIKE pattern character against one text character: `_` in the
pattern is SQLite's single-character wildcard, every other character
compares case-insensitively (LIKE is case-insensitive for ASCII).
Sanitized project prefixes can contain `_` but never `%`, so this is the
complete per-character semantics of the source pattern. -/
def likeCharMatch (p c : Char) : Bool := p = '_' || p.toLower = c.toLower

/-- Matching of a `%`-free LIKE pattern against a prefix of the text:
the source pattern ends in `%`, which accepts any remainder. -/
def likeStarts : List Char → List Char → Bool
  | [], _ => true
  | _ :: _, [] => false
  | p :: ps, c :: cs => likeCharMatch p c && likeStarts ps cs

/-- SQLite `id LIKE pfx || '-%'`: the prefix pattern (whose `_`
characters are single-character wildcards), a literal dash, then any
remainder. -/
def likeMatch (pfx id : List Char) : Bool := likeStarts (pfx ++ ['-']) id

/-- Sort key of the `generateTaskId` query:
`CAST(SUBSTR(id, LENGTH(pfx) + 2) AS INTEGER)`. -/
def suffixKey (pfx id : List Char) : Int :=
  sqliteCastInt (id.drop (pfx.length + 1))

/-- Row produced by `ORDER BY suffixKey DESC LIMIT 1` over the rows whose
id LIKE-matches the prefix (the source query; on a tie between distinct
rows SQLite picks an unspecified one, modelled as the earliest). -/
def maxSuffixRow (pfx : List Char) (store : TaskStore) : Option Task :=
  (store.filter fun t => likeMatch pfx t.id).foldl
    (fun best t =>
      match best with
      | none => some t
      | some b => if suffixKey pfx t.id > suffixKey pfx b.id then some t else some b)
    none

/-- Next sequence number of `generateTaskId`: one more than the numeric
suffix of the row with the greatest cast suffix, or 1 when no row
LIKE-matches (or its id lacks a dash-digits tail). -/
def nextTaskNum (pfx : List Char) (store : TaskStore) : Nat :=
  match maxSuffixRow pfx store with
  | none => 1
  | some row =>
    match trailingNum row.id with
    | some n => n + 1
    | none => 1

/-- Model of `generateTaskId`: uppercase 10-character prefix, a dash, and
the zero-padded next sequence number. -/
def generateTaskId (project : List Char) (store : TaskStore) : List Char :=
  taskPfx project ++ '-' :: padStart3 (natDigits (nextTaskNum (taskPfx project) store))

/-! ### Task lifecycle operations (artifacts.ts) -/

/-- Model of `getTaskById`: `SELECT * FROM tasks WHERE id = ?`. -/
def getTaskById (id : List Char) (store : TaskStore) : Option Task :=
  store.find? fun t => t.id = id

/-- Row inserted by `createTask`: generated id, truncated title,
sanitized description and project, status `queued`, defaulted trust level
and priority, creation timestamp, and null lifecycle timestamps. -/
def newTask (input : CreateTaskInput) (now : Nat) (store : TaskStore) : Task :=
  { id := generateTaskId (sanitizeProjectName input.project) store
    title := truncate input.title 200
    description := input.description.map fun d => sanitizeContent d 10000
    project := sanitizeProjectName input.project
    status := TaskStatus.queued
    trust_level := input.trust_level.getD TrustLevel.PROTOTYPE
    priority := input.priority.getD Priority.NORMAL
    created_at := now
    started_at := none
    completed_at := none }

/-- Model of `createTask`.  The sanitized empty project raises the
`Project is required` error (`none` models every thrown error); the
insert respects the `id TEXT PRIMARY KEY` constraint of the schema, so an
insert of an existing id raises.  On success the new row is appended and
returned. -/
def createTask (input : CreateTaskInput) (now : Nat) (store : TaskStore) :
    TaskStore × Option Task :=
  if (sanitizeProjectName input.project).isEmpty then (store, none)
  else if (getTaskById (generateTaskId (sanitizeProjectName input.project) store)
      store).isSome then
    (store, none)
  else (store ++ [newTask input now store], some (newTask input now store))

/-- Result of `activateTask`: the source returns `null` for a missing id,
throws a domain error on a terminal status, and otherwise returns the
updated task. -/
inductive ActivateResult where
  | notFound
  | domainError (msg : List Char)
  | ok (t : Task)
deriving DecidableEq

/-- Rendering of a status into the thrown message. -/
def statusStr : TaskStatus → List Char
  | TaskStatus.queued => ['q', 'u', 'e', 'u', 'e', 'd']
  | TaskStatus.active => ['a', 'c', 't', 'i', 'v', 'e']
  | TaskStatus.completed => ['c', 'o', 'm', 'p', 'l', 'e', 't', 'e', 'd']
  | TaskStatus.cancelled => ['c', 'a', 'n', 'c', 'e', 'l', 'l', 'e', 'd']

/-- Message `Cannot activate task with status: <status>`. -/
def cannotActivateMsg (s : TaskStatus) : List Char :=
  ['C', 'a', 'n', 'n', 'o', 't', ' ', 'a', 'c', 't', 'i', 'v', 'a', 't', 'e', ' ',
   't', 'a', 's', 'k', ' ', 'w', 'i', 't', 'h', ' ', 's', 't', 'a', 't', 'u', 's',
   ':', ' '] ++ statusStr s

/-- Demotion step of `activateTask`:
`UPDATE tasks SET status = 'queued' WHERE project = ? AND status = 'active'`. -/
def demoteActive (project : List Char) (t : Task) : Task :=
  if t.project = project ∧ t.status = TaskStatus.active then
    { t with status := TaskStatus.queued }
  else t

/-- Activation step of `activateTask`:
`UPDATE tasks SET status = 'active', started_at = COALESCE(started_at, ?)
WHERE id = ?`. -/
def setActive (id : List Char) (now : Nat) (t : Task) : Task :=
  if t.id = id then
    { t with status := TaskStatus.active, started_at := some (t.started_at.getD now) }
  else t

/-- Model of `activateTask`. -/
def activateTask (id : List Char) (now : Nat) (store : TaskStore) :
    TaskStore × ActivateResult :=
  match getTaskById id store with
  | none => (store, ActivateResult.notFound)
  | some task =>
    if task.status = TaskStatus.completed ∨ task.status = TaskStatus.cancelled then
      (store, ActivateResult.domainError (cannotActivateMsg task.status))
    else
      let store2 := (store.map (demoteActive task.project)).map (setActive id now)
      match getTaskById id store2 with
      | some updated => (store2, ActivateResult.ok updated)
      | none => (store2, ActivateResult.notFound)

/-- Model of `completeTask`: unconditional update of status and
`completed_at`. -/
def completeTask (id : List Char) (now : Nat) (store : TaskStore) :
    TaskStore × Option Task :=
  match getTaskById id store with
  | none => (store, none)
  | some _ =>
    let store2 := store.map fun t =>
      if t.id = id then
        { t with status := TaskStatus.completed, completed_at := some now }
      else t
    (store2, getTaskById id store2)

/-- Model of `cancelTask`: unconditional update of status. -/
def cancelTask (id : List Char) (store : TaskStore) :
    TaskStore × Option Task :=
  match getTaskById id store with
  | none => (store, none)
  | some _ =>
    let store2 := store.map fun t =>
      if t.id = id then { t with status := TaskStatus.cancelled } else t
    (store2, getTaskById id store2)

/-- Model of `deleteTask`: remove the row, reporting whether it
existed. -/
def deleteTask (id : List Char) (store : TaskStore) : TaskStore × Bool :=
  match getTaskById id store with
  | none => (store, false)
  | some _ => (store.filter fun t => ¬(t.id = id), true)

/-- Model of `getActiveTask`: first row of the project with status
`active`. -/
def getActiveTask (project : List Char) (store : TaskStore) : Option Task :=
  let p := sanitizeProjectName project
  store.find? fun t => t.project = p ∧ t.status = TaskStatus.active

/-- Rank used by the `CASE priority` branch of the queue query. -/
def priorityRank : Priority → Nat
  | Priority.CRITICAL => 0
  | Priority.HIGH => 1
  | Priority.NORMAL => 2
  | Priority.LOW => 3

/-- Ordering of the queue query: priority rank ascending, then
`created_at` ascending. -/
def queuedLE (a b : Task) : Prop :=
  priorityRank a.priority < priorityRank b.priority ∨
    (priorityRank a.priority = priorityRank b.priority ∧ a.created_at ≤ b.created_at)

instance : DecidableRel queuedLE := fun a b =>
  inferInstanceAs (Decidable (priorityRank a.priority < priorityRank b.priority ∨
    (priorityRank a.priority = priorityRank b.priority ∧
      a.created_at ≤ b.created_at)))

instance : IsTotal Task queuedLE :=
  ⟨fun a b => by unfold queuedLE; omega⟩

instance : IsTrans Task queuedLE :=
  ⟨fun a b c hab hbc => by unfold queuedLE at *; omega⟩

/-- Model of `getQueuedTasks`: the project's queued rows ordered by the
`CASE priority` rank then `created_at`, truncated to `limit` (the `ORDER
BY ... LIMIT ?` query; sorting is modelled by insertion sort, one of the
sorted permutations SQLite may return). -/
def getQueuedTasks (project : List Char) (limit : Nat) (store : TaskStore) :
    List Task :=
  let p := sanitizeProjectName project
  ((store.filter fun t => t.project = p ∧ t.status = TaskStatus.queued).insertionSort
      queuedLE).take limit

/-! ### Operation sequences over the task store -/

/-- One sequential call of the task lifecycle interface. -/
inductive Op where
  | create (input : CreateTaskInput) (now : Nat)
  | activate (id : List Char) (now : Nat)
  | complete (id : List Char) (now : Nat)
  | cancel (id : List Char)
  | delete (id : List Char)

/-- Effect of one operation on the store. -/
def applyOp (store : TaskStore) : Op → TaskStore
  | Op.create input now => (createTask input now store).1
  | Op.activate id now => (activateTask id now store).1
  | Op.complete id now => (completeTask id now store).1
  | Op.cancel id => (cancelTask id store).1
  | Op.delete id => (deleteTask id store).1

/-- Store reached from the empty database by a sequence of calls. -/
def runOps (ops : List Op) : TaskStore := ops.foldl applyOp []

/-! ### Search relevance (search.ts) -/

/-- Greedy non-overlapping occurrence count: the source loop repeatedly
takes `indexOf` and advances by the pattern length (the loop requires a
nonempty pattern to terminate; `search` rejects empty queries before
calling it). -/
def countOcc (pat : List Char) : List Char → Nat
  | [] => 0
  | c :: cs =>
    if startsWithB pat (c :: cs) then 1 + countOcc pat (cs.drop (pat.length - 1))
    else countOcc pat cs
termination_by l => l.length
decreasing_by
  · simp only [List.length_cons, List.length_drop]
    omega
  · simp

/-- Regex word boundary: at position `i` of `text`, exactly one side is a
word character (positions outside the text count as non-word). -/
def wordBoundaryAt (text : List Char) (i : Nat) : Bool :=
  (if i = 0 then false else isWordCharB (text.getD (i - 1) ' ')) !=
    isWordCharB (text.getD i ' ')

/-- Whole-word containment: the pattern occurs somewhere with a word
boundary on both sides (the source builds a case-insensitive
word-boundary regex from the escaped, hence literal, lowercase query;
both arguments here are already lowercased). -/
def wordMatchB (text pat : List Char) : Bool :=
  (List.range (text.length + 1)).any fun i =>
    startsWithB pat (text.drop i) && wordBoundaryAt text i &&
      wordBoundaryAt text (i + pat.length)

/-- Model of `calculateScore` over exact rationals (the source uses the
decimal literals 0.2, 0.3 and 1.0). -/
def calculateScore (text searchTerm : List Char) : ℚ :=
  let lowerText := lowerStr text
  let lowerSearch := lowerStr searchTerm
  let count := countOcc lowerSearch lowerText
  let base := min ((count : ℚ) * (2 / 10)) 1
  let s1 := if startsWithB lowerSearch lowerText then base + 3 / 10 else base
  let s2 := if wordMatchB lowerText lowerSearch then s1 + 2 / 10 else s1
  min s2 1

/-- Ellipsis marker. -/
def dots : List Char := ['.', '.', '.']

/-- Snippet window radius `Math.floor((maxLength - searchTerm.length) /
2)`, over integers as the source computes possibly negative values with
JavaScript numbers (`Int.fdiv` is `Math.floor` of the real quotient). -/
def snippetRadius (searchTerm : List Char) (maxLength : Nat) : Int :=
  Int.fdiv ((maxLength : Int) - (searchTerm.length : Int)) 2

/-- Left boundary of the snippet: `max(0, index - radius)`, then advanced
past the first space at or after it when that space lies before the
match. -/
def snippetStart (text searchTerm : List Char) (maxLength index : Nat) : Int :=
  let start0 : Int := max 0 ((index : Int) - snippetRadius searchTerm maxLength)
  if 0 < start0 then
    match indexOfSpaceFrom text start0.toNat with
    | some spaceIndex =>
      if (spaceIndex : Int) < (index : Int) then (spaceIndex : Int) + 1 else start0
    | none => start0
  else start0

/-- Right boundary of the snippet: `min(len, index + searchTerm.length +
radius)`, then retreated to the last space at or before it when that
space lies after the match. -/
def snippetEnd (text searchTerm : List Char) (maxLength index : Nat) : Int :=
  let end0 : Int :=
    min (text.length : Int) ((index : Int) + (searchTerm.length : Int) +
      snippetRadius searchTerm maxLength)
  if end0 < (text.length : Int) then
    match lastIndexOfSpaceLe text end0.toNat with
    | some spaceIndex =>
      if (index : Int) + (searchTerm.length : Int) < (spaceIndex : Int) then
        (spaceIndex : Int)
      else end0
    | none => end0
  else end0

/-- Model of `createSnippet`: truncation when the query does not occur,
otherwise the adjusted window slice with `...` markers on each truncated
side. -/
def createSnippet (text searchTerm : List Char) (maxLength : Nat) : List Char :=
  match indexOfSub (lowerStr searchTerm) (lowerStr text) with
  | none => truncate text maxLength
  | some index =>
    let start1 := snippetStart text searchTerm maxLength index
    let end1 := snippetEnd text searchTerm maxLength index
    let snippet := (text.drop start1.toNat).take (end1 - start1).toNat
    let snippet := if 0 < start1 then dots ++ snippet else snippet
    if end1 < (text.length : Int) then snippet ++ dots else snippet

/-- Snippet written from the specification text, for the case where the
query occurs at `index`: center a window using `radius = floor((maxLength
- queryLength) / 2)`, `start = max(0, index - radius)`, `end =
min(len(text), index + queryLength + radius)`; advance `start` to just
past a space only when that space lies before the match, retreat `end` to
a space only when it lies after the match; prefix `...` exactly when
`start > 0` and suffix `...` exactly when `end < len(text)`. -/
def snippetSpec (text searchTerm : List Char) (maxLength index : Nat) : List Char :=
  let radius : Int := Int.fdiv ((maxLength : Int) - (searchTerm.length : Int)) 2
  let start0 : Int := max 0 ((index : Int) - radius)
  let end0 : Int :=
    min (text.length : Int) ((index : Int) + (searchTerm.length : Int) + radius)
  let start1 : Int :=
    if 0 < start0 then
      match indexOfSpaceFrom text start0.toNat with
      | some spaceIndex =>
        if (spaceIndex : Int) < (index : Int) then (spaceIndex : Int) + 1 else start0
      | none => start0
    else start0
  let end1 : Int :=
    if end0 < (text.length : Int) then
      match lastIndexOfSpaceLe text end0.toNat with
      | some spaceIndex =>
        if (index : Int) + (searchTerm.length : Int) < (spaceIndex : Int) then
          (spaceIndex : Int)
        else end0
      | none => end0
    else end0
  (if 0 < start1 then dots else []) ++
    (text.drop start1.toNat).take (end1 - start1).toNat ++
    (if end1 < (text.length : Int) then dots else [])

/-! ### Feedback rate limiter -/

/-- Feedback row fields used by the limiter (`created_at` in integer
milliseconds; the source compares ISO-8601 strings, whose order is the
chronological one). -/
structure Feedback where
  user_id : List Char
  created_at : Int
deriving DecidableEq

/-- Result shape of `checkRateLimit` (`resetIn` in whole seconds). -/
structure RateLimitResult where
  allowed : Bool
  remaining : Nat
  limit : Nat
  resetIn : Option Int
deriving DecidableEq

/-- Source constant `DAILY_LIMIT`. -/
def DAILY_LIMIT : Nat := 2

/-- Source constant `DAY_IN_SECONDS`. -/
def DAY_IN_SECONDS : Int := 86400

/-- JavaScript `Math.ceil(a / 1000)` for an integer numerator. -/
def ceilDiv1000 (a : Int) : Int := Int.fdiv (a + 999) 1000

/-- Rows of the user strictly inside the rolling 24-hour window (the
`user_id = ? AND created_at > ?` condition of both source queries). -/
def windowRows (userId : List Char) (now : Int) (rows : List Feedback) :
    List Feedback :=
  rows.filter fun f => f.user_id = userId ∧ now - DAY_IN_SECONDS * 1000 < f.created_at

/-- Minimum of a list of integers, `none` when empty (SQLite
`MIN(created_at)`). -/
def listMin? : List Int → Option Int
  | [] => none
  | x :: xs => some (xs.foldl min x)

/-- Model of `checkRateLimit`.  `remaining` is `Math.max(0, DAILY_LIMIT -
used)`, which truncated natural subtraction renders exactly; the blocked
branch fires when `remaining` is zero and the window has a row (the
source tests `MAX(created_at)` for null). -/
def checkRateLimit (userId : List Char) (now : Int) (rows : List Feedback) :
    RateLimitResult :=
  let window := windowRows userId now rows
  let used := window.length
  let remaining := DAILY_LIMIT - used
  if remaining = 0 ∧ ¬window.isEmpty then
    match listMin? (window.map fun f => f.created_at) with
    | some oldest =>
      let resetAt := oldest + DAY_IN_SECONDS * 1000
      let resetIn := ceilDiv1000 (resetAt - now)
      { allowed := false, remaining := 0, limit := DAILY_LIMIT,
        resetIn := some (max 0 resetIn) }
    | none =>
      { allowed := true, remaining := remaining, limit := DAILY_LIMIT,
        resetIn := none }
  else
    { allowed := true, remaining := remaining, limit := DAILY_LIMIT,
      resetIn := none }

/-- Admission decision written from the specification text: count the
window rows; below 2 the user is allowed with `2 - count` remaining;
otherwise blocked with `reset_in = max(0, ceil((oldest + 86400 s - now) /
1000))` where `oldest` is the minimum `created_at` in the window. -/
def checkRateLimitSpec (userId : List Char) (now : Int) (rows : List Feedback) :
    RateLimitResult :=
  let window := windowRows userId now rows
  let count := window.length
  if count < 2 then
    { allowed := true, remaining := 2 - count, limit := 2, resetIn := none }
  else
    let oldest := (listMin? (window.map fun f => f.created_at)).getD 0
    { allowed := false, remaining := 0, limit := 2,
      resetIn := some (max 0 (ceilDiv1000 (oldest + 86400 * 1000 - now))) }

/-- Shape of every id `generateTaskId` can produce: the prefix, a dash,
and the zero-padded decimal digits of `n`. -/
def taskIdFor (pfx : List Char) (n : Nat) : List Char :=
  pfx ++ '-' :: padStart3 (natDigits n)

/-! ### Derived definitions used by the verification -/

/-- Collision between two task-id prefixes under the LIKE query: the
dashed pattern of `pp` matches the dashed prefix of `qp`, so rows of a
project with prefix `qp` are picked up by the max-suffix query for `pp`.
This covers equal prefixes, a prefix extending another across a dash,
and matches through `_` single-character wildcards. -/
def pfxClash (qp pp : List Char) : Prop :=
  likeStarts (pp ++ ['-']) (qp ++ ['-']) = true

instance (qp pp : List Char) : Decidable (pfxClash qp pp) :=
  inferInstanceAs (Decidable (likeStarts (pp ++ ['-']) (qp ++ ['-']) = true))

/-- Accumulator step of `maxSuffixRow`. -/
def maxStep (pfx : List Char) (best : Option Task) (t : Task) : Option Task :=
  match best with
  | none => some t
  | some b => if suffixKey pfx t.id > suffixKey pfx b.id then some t else some b

/-- After some successful creations, the rows the LIKE query for the
prefix of project `P` can see are exactly ids `P-001 … P-k`, and the row
holding the maximum `k` is present. -/
def storeInv (P : List Char) (k : Nat) (store : TaskStore) : Prop :=
  (∀ t ∈ store, likeMatch (taskPfx P) t.id = true →
    ∃ n, 1 ≤ n ∧ n ≤ k ∧ t.id = taskIdFor (taskPfx P) n) ∧
  (1 ≤ k → ∃ t ∈ store, t.id = taskIdFor (taskPfx P) k)

/-- Ids returned by a sequence of `createTask` calls, restricted to the
calls whose sanitized project is `P` (each pair is an input and the
creation time). -/
def runCreateSeq (P : List Char) :
    List (CreateTaskInput × Nat) → TaskStore → List (List Char)
  | [], _ => []
  | (input, now) :: rest, store =>
    match createTask input now store with
    | (store', some t) =>
      if sanitizeProjectName input.project = P then t.id :: runCreateSeq P rest store'
      else runCreateSeq P rest store'
    | (store', none) => runCreateSeq P rest store'

/-- Predicate of the single-active-task invariant: the task belongs to
the project and is `active`. -/
def isActiveIn (p : List Char) (t : Task) : Bool :=
  decide (t.project = p ∧ t.status = TaskStatus.active)

/-- Well-formedness every reachable store enjoys: primary keys are
distinct and each project has at most one active task. -/
def WFStore (store : TaskStore) : Prop :=
  (store.map Task.id).Nodup ∧ ∀ p, store.countP (isActiveIn p) ≤ 1

/-! ### Concrete data used by witnesses and counterexamples -/

/-- Creation input with a fixed title and the given project. -/
def mkCreate (p : List Char) : CreateTaskInput :=
  { title := ['t'], description := none, project := p,
    trust_level := none, priority := none }

/-- Eleven-character project; its 10-character prefix drops the final
letter. -/
def projA : List Char := ['a', 'a', 'a', 'a', 'a', 'a', 'a', 'a', 'a', 'a', 'a']

/-- Another eleven-character project sharing the first ten characters
with `projA`. -/
def projB : List Char := ['a', 'a', 'a', 'a', 'a', 'a', 'a', 'a', 'a', 'a', 'b']

/-- Sanitized four-character project. -/
def demoP : List Char := ['d', 'e', 'm', 'o']

/-- A project whose prefix does not collide with `demoP`. -/
def otherP : List Char := ['x', 'y', 'z']

/-- Interleaved creations for the two prefix-sharing projects. -/
def c2Inputs : List (CreateTaskInput × Nat) :=
  [(mkCreate projA, 1), (mkCreate projB, 2), (mkCreate projA, 3)]

/-- Interleaved creations for `demoP` and a non-colliding project. -/
def c2WInputs : List (CreateTaskInput × Nat) :=
  [(mkCreate demoP, 1), (mkCreate otherP, 2), (mkCreate demoP, 3)]

/-- Store holding the first `demo` task. -/
def c3Store1 : TaskStore := (createTask (mkCreate demoP) 1 []).1

/-- Store holding the first two `demo` tasks. -/
def c3Store2 : TaskStore := (createTask (mkCreate demoP) 2 c3Store1).1

/-- Store after deleting the task holding the maximum suffix. -/
def c3Store3 : TaskStore := (deleteTask (taskIdFor (taskPfx demoP) 2) c3Store2).1

/-- Creation input of the queue-ordering example with a priority. -/
def mkPrio (t : List Char) (p : Priority) : CreateTaskInput :=
  { title := t, description := none, project := demoP,
    trust_level := none, priority := some p }

/-- Store of the queue-ordering example: tasks A (`LOW`), B (`CRITICAL`)
and C (`NORMAL`) created in that order in project `demo`. -/
def queueStore : TaskStore :=
  (createTask (mkPrio ['C'] Priority.NORMAL) 3
    ((createTask (mkPrio ['B'] Priority.CRITICAL) 2
      ((createTask (mkPrio ['A'] Priority.LOW) 1 []).1)).1)).1

/-- Snippet example text `abcdefghij`. -/
def exText : List Char := ['a', 'b', 'c', 'd', 'e', 'f', 'g', 'h', 'i', 'j']

/-- Snippet example query `e`. -/
def exQuery : List Char := ['e']

/-- Feedback rows of the rate-limit example: two submissions of the same
user within the last hour. -/
def exRows : List Feedback :=
  [{ user_id := ['u', '1'], created_at := 1000000 },
   { user_id := ['u', '1'], created_at := 2000000 }]

/-- Note text of the scoring example. -/
def exNoteText : List Char :=
  ['T', 'h', 'i', 's', ' ', 'i', 's', ' ', 'a', 'b', 'o', 'u', 't', ' ',
   'T', 'y', 'p', 'e', 'S', 'c', 'r', 'i', 'p', 't', ' ',
   't', 'o', 'o', 'l', 'i', 'n', 'g']

/-- Query of the scoring example. -/
def exScoreQuery : List Char :=
  ['T', 'y', 'p', 'e', 'S', 'c', 'r', 'i', 'p', 't']

/-- A completed task used by the terminal-activation witness. -/
def c4Task : Task :=
  { id := taskIdFor (taskPfx demoP) 1, title := ['t'], description := none,
    project := demoP, status := TaskStatus.completed,
    trust_level := TrustLevel.PROTOTYPE, priority := Priority.NORMAL,
    created_at := 1, started_at := none, completed_at := some 5 }

/-- Store holding only the completed task. -/
def c4Store : TaskStore := [c4Task]

/-- A title of 201 characters. -/
def longTitle : List Char := List.replicate 201 'a'

/-- Creation input with the 201-character title. -/
def longInput : CreateTaskInput :=
  { title := longTitle, description := none, project := demoP,
    trust_level := none, priority := none }

/-! ### Helper lemmas: prefixes and substring search -/

theorem startsWithB_iff (p s : List Char) : startsWithB p s = true ↔ p <+: s := by
  induction p generalizing s with
  | nil => simp [startsWithB]
  | cons c cs ih =>
    cases s with
    | nil => simp [startsWithB]
    | cons d ds => simp [startsWithB, ih, List.cons_prefix_cons]

theorem startsWithCI_eq_lower (p s : List Char) :
    startsWithCI p s = startsWithB (lowerStr p) (lowerStr s) := by
  induction p generalizing s with
  | nil => simp [startsWithCI, lowerStr, startsWithB]
  | cons c cs ih =>
    cases s with
    | nil => simp [startsWithCI, lowerStr, startsWithB]
    | cons d ds => simp [startsWithCI, lowerStr, startsWithB, ih]

theorem startsWithCI_append_self (a b : List Char) :
    startsWithCI a (a ++ b) = true := by
  induction a with
  | nil => simp [startsWithCI]
  | cons c cs ih => simp [startsWithCI, ih]

theorem startsWithB_length_le (p s : List Char) (h : startsWithB p s = true) :
    p.length ≤ s.length :=
  ((startsWithB_iff p s).mp h).length_le

theorem indexOfSub_startsWith (pat text : List Char) (i : Nat)
    (h : indexOfSub pat text = some i) : startsWithB pat (text.drop i) = true := by
  induction text generalizing i with
  | nil =>
    unfold indexOfSub at h
    split at h
    · rename_i hs
      cases h
      simpa using hs
    · cases h
  | cons c cs ih =>
    unfold indexOfSub at h
    split at h
    · rename_i hs
      cases h
      simpa using hs
    · cases hi : indexOfSub pat cs with
      | none => rw [hi] at h; cases h
      | some j =>
        rw [hi] at h
        simp only [Option.map_some'] at h
        cases h
        simpa using ih j hi

theorem containsSub_of_startsWith (pat text : List Char) (i : Nat)
    (h : startsWithB pat (text.drop i) = true) : containsSub pat text = true := by
  induction text generalizing i with
  | nil =>
    simp only [List.drop_nil] at h
    simp [containsSub, indexOfSub, h]
  | cons c cs ih =>
    unfold containsSub indexOfSub
    split
    · simp
    · cases i with
      | zero => simp_all
      | succ j =>
        simp only [List.drop_succ_cons] at h
        have := ih j h
        unfold containsSub at this
        simpa using this

theorem containsSub_append_left (pat pre text : List Char)
    (h : containsSub pat text = true) : containsSub pat (pre ++ text) = true := by
  unfold containsSub at h
  cases hi : indexOfSub pat text with
  | none => rw [hi] at h; cases h
  | some i =>
    have hs := indexOfSub_startsWith pat text i hi
    apply containsSub_of_startsWith pat (pre ++ text) (pre.length + i)
    rw [List.drop_append i]
    exact hs

theorem startsWithB_take (pat l : List Char) (m : Nat)
    (h : startsWithB pat l = true) (hm : pat.length ≤ m) :
    startsWithB pat (l.take m) = true := by
  rw [startsWithB_iff] at h ⊢
  obtain ⟨r, rfl⟩ := h
  rw [List.take_append_eq_append_take, List.take_of_length_le (by omega)]
  exact List.prefix_append _ _

/-! ### Helper lemmas: digit strings and numeric suffixes -/

theorem natDigitsGo_eq (fuel : Nat) :
    ∀ (n : Nat) (acc : List Char), n ≤ fuel →
      natDigitsGo fuel n acc = (Nat.digits 10 n).reverse.map digitChar ++ acc := by
  induction fuel with
  | zero =>
    intro n acc hn
    interval_cases n
    simp [natDigitsGo]
  | succ fuel ih =>
    intro n acc hn
    unfold natDigitsGo
    by_cases h0 : n = 0
    · subst h0
      simp
    · rw [if_neg h0]
      rw [ih (n / 10) _ (by omega)]
      rw [Nat.digits_def' (by norm_num : (1 : Nat) < 10) (Nat.pos_of_ne_zero h0)]
      simp

theorem natDigits_eq (n : Nat) :
    natDigits n = (Nat.digits 10 n).reverse.map digitChar := by
  unfold natDigits
  rw [natDigitsGo_eq n n [] (le_refl n), List.append_nil]

theorem charVal_ofNat_digit (d : Nat) (hd : d < 10) :
    (digitChar d).toNat - 48 = d := by
  interval_cases d <;> decide

theorem mem_padded (n : Nat) (c : Char) (hc : c ∈ padStart3 (natDigits n)) :
    ∃ d, d < 10 ∧ c = digitChar d := by
  unfold padStart3 at hc
  rw [List.mem_append] at hc
  rcases hc with h | h
  · exact ⟨0, by norm_num, by rw [List.eq_of_mem_replicate h]; decide⟩
  · rw [natDigits_eq, List.mem_map] at h
    obtain ⟨d, hd, rfl⟩ := h
    exact ⟨d, Nat.digits_lt_base (by norm_num) (List.mem_reverse.mp hd), rfl⟩

theorem foldl_zeros (k : Nat) :
    (List.replicate k '0').foldl (fun v c => v * 10 + (c.toNat - 48)) 0 = 0 := by
  induction k with
  | zero => rfl
  | succ m ih => simpa [List.replicate_succ] using ih

theorem digitsVal_append_zeros (k : Nat) (s : List Char) :
    digitsVal (List.replicate k '0' ++ s) = digitsVal s := by
  unfold digitsVal
  rw [List.foldl_append, foldl_zeros]

theorem foldVal_aux (L : List Nat) (hL : ∀ d ∈ L, d < 10) (v : Nat) :
    ((L.reverse.map digitChar).foldl
        (fun v c => v * 10 + (c.toNat - 48)) v) =
      v * 10 ^ L.length + Nat.ofDigits 10 L := by
  induction L generalizing v with
  | nil => simp [Nat.ofDigits]
  | cons d L ih =>
    rw [List.reverse_cons, List.map_append, List.foldl_append]
    simp only [List.map_cons, List.map_nil, List.foldl_cons, List.foldl_nil]
    rw [ih (fun x hx => hL x (List.mem_cons_of_mem _ hx)) v]
    rw [charVal_ofNat_digit d (hL d (List.mem_cons_self _ _))]
    rw [Nat.ofDigits_cons]
    simp only [List.length_cons, pow_succ]
    ring

theorem digitsVal_natDigits (n : Nat) : digitsVal (natDigits n) = n := by
  rw [natDigits_eq]
  unfold digitsVal
  rw [foldVal_aux (Nat.digits 10 n)
      (fun d hd => Nat.digits_lt_base (by norm_num) hd) 0]
  simp [Nat.ofDigits_digits]

theorem digitsVal_padded (n : Nat) : digitsVal (padStart3 (natDigits n)) = n := by
  unfold padStart3
  rw [digitsVal_append_zeros]
  exact digitsVal_natDigits n

theorem isDigit_padded (n : Nat) (c : Char) (hc : c ∈ padStart3 (natDigits n)) :
    c.isDigit = true := by
  obtain ⟨d, hd, rfl⟩ := mem_padded n c hc
  interval_cases d <;> decide

theorem toLower_padded (n : Nat) (c : Char) (hc : c ∈ padStart3 (natDigits n)) :
    c.toLower = c := by
  obtain ⟨d, hd, rfl⟩ := mem_padded n c hc
  interval_cases d <;> decide

theorem notSpecial_padded (n : Nat) (c : Char) (hc : c ∈ padStart3 (natDigits n)) :
    c ≠ ' ' ∧ c ≠ '-' ∧ c ≠ '+' := by
  obtain ⟨d, hd, rfl⟩ := mem_padded n c hc
  interval_cases d <;> exact ⟨by decide, by decide, by decide⟩

theorem padded_length (n : Nat) : 3 ≤ (padStart3 (natDigits n)).length := by
  unfold padStart3
  rw [List.length_append, List.length_replicate]
  omega

theorem takeWhile_all (p : Char → Bool) (l : List Char) (h : ∀ x ∈ l, p x = true) :
    l.takeWhile p = l := by
  induction l with
  | nil => rfl
  | cons c cs ih =>
    rw [List.takeWhile_cons, if_pos (h c (List.mem_cons_self _ _))]
    rw [ih fun x hx => h x (List.mem_cons_of_mem _ hx)]

theorem takeWhile_all_append (p : Char → Bool) (a : List Char)
    (ha : ∀ x ∈ a, p x = true) (c : Char) (hc : p c = false) (b : List Char) :
    (a ++ c :: b).takeWhile p = a := by
  induction a with
  | nil => simp [List.takeWhile_cons, hc]
  | cons x xs ih =>
    rw [List.cons_append, List.takeWhile_cons,
      if_pos (ha x (List.mem_cons_self _ _))]
    rw [ih fun y hy => ha y (List.mem_cons_of_mem _ hy)]

theorem taskIdFor_inj (pfx : List Char) (n m : Nat)
    (h : taskIdFor pfx n = taskIdFor pfx m) : n = m := by
  unfold taskIdFor at h
  have h2 := List.append_cancel_left h
  have h3 : padStart3 (natDigits n) = padStart3 (natDigits m) := by
    injection h2
  have := digitsVal_padded n
  rw [h3, digitsVal_padded m] at this
  omega

theorem sqliteCastInt_padded (n : Nat) :
    sqliteCastInt (padStart3 (natDigits n)) = (n : Int) := by
  unfold sqliteCastInt
  cases hp : padStart3 (natDigits n) with
  | nil =>
    exfalso
    have := padded_length n
    rw [hp] at this
    simp at this
  | cons c cs =>
    have hc : c ∈ padStart3 (natDigits n) := by rw [hp]; exact List.mem_cons_self _ _
    obtain ⟨h1, h2, h3⟩ := notSpecial_padded n c hc
    have hdw : (c :: cs).dropWhile (· = ' ') = c :: cs := by
      rw [List.dropWhile_cons]
      simp [h1]
    simp only [hdw, List.headD_cons, h2, h3, if_false]
    have hall : ∀ x ∈ c :: cs, x.isDigit = true := by
      intro x hx
      apply isDigit_padded n
      rw [hp]
      exact hx
    rw [takeWhile_all _ _ hall, ← hp, digitsVal_padded]

theorem suffixKey_taskIdFor (pfx : List Char) (n : Nat) :
    suffixKey pfx (taskIdFor pfx n) = (n : Int) := by
  unfold suffixKey taskIdFor
  have hsplit : pfx ++ '-' :: padStart3 (natDigits n) =
      (pfx ++ ['-']) ++ padStart3 (natDigits n) := by simp
  have hlen : pfx.length + 1 = (pfx ++ ['-']).length := by simp
  rw [hsplit, hlen, List.drop_left]
  exact sqliteCastInt_padded n

theorem trailingNum_taskIdFor (pfx : List Char) (n : Nat) :
    trailingNum (taskIdFor pfx n) = some n := by
  unfold trailingNum taskIdFor
  have hrev : (pfx ++ '-' :: padStart3 (natDigits n)).reverse =
      (padStart3 (natDigits n)).reverse ++ '-' :: pfx.reverse := by
    simp
  rw [hrev]
  have hall : ∀ x ∈ (padStart3 (natDigits n)).reverse, x.isDigit = true := by
    intro x hx
    exact isDigit_padded n x (List.mem_reverse.mp hx)
  rw [takeWhile_all_append _ _ hall '-' (by decide)]
  have hne : (padStart3 (natDigits n)).reverse.isEmpty = false := by
    have := padded_length n
    cases hq : (padStart3 (natDigits n)).reverse with
    | nil =>
      exfalso
      have : (padStart3 (natDigits n)).reverse.length = 0 := by rw [hq]; rfl
      rw [List.length_reverse] at this
      omega
    | cons a b => rfl
  rw [if_neg (by simp [hne])]
  have hdrop : ((padStart3 (natDigits n)).reverse ++ '-' :: pfx.reverse).drop
      (padStart3 (natDigits n)).reverse.length = '-' :: pfx.reverse :=
    List.drop_left _ _
  rw [hdrop]
  simp [digitsVal_padded]

theorem likeCharMatch_refl (c : Char) : likeCharMatch c c = true := by
  unfold likeCharMatch
  simp

theorem likeStarts_refl_append (a b : List Char) :
    likeStarts a (a ++ b) = true := by
  induction a with
  | nil => rfl
  | cons c cs ih => simp [likeStarts, likeCharMatch_refl, ih]

theorem likeStarts_append_right (p t u : List Char)
    (h : likeStarts p t = true) : likeStarts p (t ++ u) = true := by
  induction p generalizing t with
  | nil => rfl
  | cons c cs ih =>
    cases t with
    | nil => simp [likeStarts] at h
    | cons d ds =>
      rw [List.cons_append]
      unfold likeStarts at h ⊢
      rw [Bool.and_eq_true] at h ⊢
      exact ⟨h.1, ih ds h.2⟩

theorem likeStarts_length (p t : List Char) (h : likeStarts p t = true) :
    p.length ≤ t.length := by
  induction p generalizing t with
  | nil => simp
  | cons c cs ih =>
    cases t with
    | nil => simp [likeStarts] at h
    | cons d ds =>
      unfold likeStarts at h
      rw [Bool.and_eq_true] at h
      have := ih ds h.2
      simp only [List.length_cons]
      omega

theorem likeStarts_take (p t : List Char) (h : likeStarts p t = true) :
    likeStarts p (t.take p.length) = true := by
  induction p generalizing t with
  | nil => rfl
  | cons c cs ih =>
    cases t with
    | nil => simp [likeStarts] at h
    | cons d ds =>
      unfold likeStarts at h
      rw [Bool.and_eq_true] at h
      simp only [List.length_cons, List.take_succ_cons]
      unfold likeStarts
      rw [Bool.and_eq_true]
      exact ⟨h.1, ih ds h.2⟩

theorem likeStarts_split (a b t : List Char)
    (h : likeStarts (a ++ b) t = true) :
    likeStarts b (t.drop a.length) = true := by
  induction a generalizing t with
  | nil => simpa using h
  | cons c cs ih =>
    cases t with
    | nil =>
      rw [List.cons_append] at h
      simp [likeStarts] at h
    | cons d ds =>
      rw [List.cons_append] at h
      unfold likeStarts at h
      rw [Bool.and_eq_true] at h
      simpa using ih ds h.2

theorem likeMatch_self (pfx : List Char) (n : Nat) :
    likeMatch pfx (taskIdFor pfx n) = true := by
  unfold likeMatch taskIdFor
  have hsplit : pfx ++ '-' :: padStart3 (natDigits n) =
      (pfx ++ ['-']) ++ padStart3 (natDigits n) := by simp
  rw [hsplit]
  exact likeStarts_refl_append _ _

/-! ### Helper lemmas: LIKE interference between prefixes -/

theorem lowerStr_fixed (l : List Char) (h : ∀ c ∈ l, c.toLower = c) :
    lowerStr l = l := by
  unfold lowerStr
  induction l with
  | nil => rfl
  | cons a b ih => simp_all

theorem pfxClash_of_likeMatch (qp pp ds : List Char)
    (hds : ∀ c ∈ ds, c.isDigit = true ∧ c.toLower = c)
    (h : likeMatch pp (qp ++ '-' :: ds) = true) : pfxClash qp pp := by
  unfold likeMatch at h
  unfold pfxClash
  have hsplit : qp ++ '-' :: ds = (qp ++ ['-']) ++ ds := by simp
  rw [hsplit] at h
  by_cases hlen : (pp ++ ['-']).length ≤ (qp ++ ['-']).length
  · have h1 := likeStarts_take _ _ h
    rw [List.take_append_eq_append_take] at h1
    have hz : (pp ++ ['-']).length - (qp ++ ['-']).length = 0 := by omega
    rw [hz, List.take_zero, List.append_nil] at h1
    have h3 := likeStarts_append_right _ _
      ((qp ++ ['-']).drop (pp ++ ['-']).length) h1
    rw [List.take_append_drop] at h3
    exact h3
  · exfalso
    push_neg at hlen
    have h2 := likeStarts_split pp ['-'] _ h
    rw [List.drop_append_eq_append_drop] at h2
    have hql : (qp ++ ['-']).length ≤ pp.length := by
      simp only [List.length_append, List.length_cons, List.length_nil] at hlen ⊢
      omega
    rw [List.drop_eq_nil_of_le hql, List.nil_append] at h2
    cases hdk : ds.drop (pp.length - (qp ++ ['-']).length) with
    | nil =>
      rw [hdk] at h2
      simp [likeStarts] at h2
    | cons c rest =>
      rw [hdk] at h2
      unfold likeStarts at h2
      rw [Bool.and_eq_true] at h2
      have hc : c ∈ ds := by
        apply List.mem_of_mem_drop (n := pp.length - (qp ++ ['-']).length)
        rw [hdk]
        exact List.mem_cons_self _ _
      obtain ⟨hcd, hcl⟩ := hds c hc
      have hcm := h2.1
      unfold likeCharMatch at hcm
      rw [Bool.or_eq_true] at hcm
      rcases hcm with hcm | hcm
      · exact absurd hcm (by decide)
      · rw [decide_eq_true_eq] at hcm
        rw [hcl] at hcm
        have hdash : ('-' : Char).toLower = '-' := by decide
        rw [hdash] at hcm
        rw [← hcm] at hcd
        exact absurd hcd (by decide)

/-! ### Helper lemmas: the max-suffix query -/

theorem maxSuffixRow_eq_foldl (pfx : List Char) (store : TaskStore) :
    maxSuffixRow pfx store =
      (store.filter fun t => likeMatch pfx t.id).foldl (maxStep pfx) none := rfl

theorem foldMax_none (pfx : List Char) (l : List Task) (acc : Option Task)
    (h : l.foldl (maxStep pfx) acc = none) : acc = none ∧ l = [] := by
  induction l generalizing acc with
  | nil => exact ⟨h, rfl⟩
  | cons t ts ih =>
    rw [List.foldl_cons] at h
    obtain ⟨h1, h2⟩ := ih (maxStep pfx acc t) h
    exfalso
    unfold maxStep at h1
    cases acc with
    | none => cases h1
    | some b =>
      simp only at h1
      split at h1 <;> cases h1

theorem foldMax_some (pfx : List Char) (l : List Task) (acc : Option Task)
    (r : Task) (h : l.foldl (maxStep pfx) acc = some r) :
    (acc = some r ∨ r ∈ l) ∧ (∀ t ∈ l, suffixKey pfx t.id ≤ suffixKey pfx r.id) ∧
      (∀ b, acc = some b → suffixKey pfx b.id ≤ suffixKey pfx r.id) := by
  induction l generalizing acc with
  | nil =>
    simp only [List.foldl_nil] at h
    refine ⟨Or.inl h, by simp, fun b hb => ?_⟩
    rw [h] at hb
    cases hb
    exact le_refl _
  | cons t ts ih =>
    rw [List.foldl_cons] at h
    obtain ⟨h1, h2, h3⟩ := ih (maxStep pfx acc t) h
    have hstep : ∀ b, maxStep pfx acc t = some b →
        suffixKey pfx b.id ≤ suffixKey pfx r.id := h3
    have hkt : suffixKey pfx t.id ≤ suffixKey pfx r.id := by
      unfold maxStep at hstep
      cases acc with
      | none => exact hstep t rfl
      | some b =>
        simp only at hstep
        by_cases hgt : suffixKey pfx t.id > suffixKey pfx b.id
        · exact hstep t (by rw [if_pos hgt])
        · have hb := hstep b (by rw [if_neg hgt])
          omega
    refine ⟨?_, ?_, ?_⟩
    · rcases h1 with h1 | h1
      · unfold maxStep at h1
        cases acc with
        | none =>
          cases h1
          exact Or.inr (List.mem_cons_self _ _)
        | some b =>
          simp only at h1
          split at h1
          · cases h1
            exact Or.inr (List.mem_cons_self _ _)
          · cases h1
            exact Or.inl rfl
      · exact Or.inr (List.mem_cons_of_mem _ h1)
    · intro u hu
      rcases List.mem_cons.mp hu with rfl | hu
      · exact hkt
      · exact h2 u hu
    · intro b hb
      unfold maxStep at hstep
      cases hb
      simp only at hstep
      by_cases hgt : suffixKey pfx t.id > suffixKey pfx b.id
      · have := hstep t (by rw [if_pos hgt])
        omega
      · exact hstep b (by rw [if_neg hgt])

/-! ### Store invariant for sequential id allocation -/

theorem storeInv_nil (P : List Char) : storeInv P 0 [] := by
  constructor
  · intro t ht
    cases ht
  · intro h
    omega

theorem nextTaskNum_inv (P : List Char) (k : Nat) (store : TaskStore)
    (h : storeInv P k store) : nextTaskNum (taskPfx P) store = k + 1 := by
  obtain ⟨hall, hmax⟩ := h
  unfold nextTaskNum
  cases hk : k with
  | zero =>
    have hfilter : (store.filter fun t => likeMatch (taskPfx P) t.id) = [] := by
      rw [List.filter_eq_nil_iff]
      intro t ht hlike
      obtain ⟨n, hn1, hn2, _⟩ := hall t ht (by simpa using hlike)
      omega
    rw [maxSuffixRow_eq_foldl, hfilter]
    rfl
  | succ k' =>
    obtain ⟨t0, ht0mem, ht0id⟩ := hmax (by omega)
    have ht0f : t0 ∈ store.filter fun t => likeMatch (taskPfx P) t.id := by
      rw [List.mem_filter]
      exact ⟨ht0mem, by rw [ht0id]; exact likeMatch_self _ _⟩
    cases hmr : maxSuffixRow (taskPfx P) store with
    | none =>
      exfalso
      rw [maxSuffixRow_eq_foldl] at hmr
      obtain ⟨-, hnil⟩ := foldMax_none _ _ _ hmr
      rw [hnil] at ht0f
      cases ht0f
    | some r =>
      rw [maxSuffixRow_eq_foldl] at hmr
      obtain ⟨hr1, hr2, -⟩ := foldMax_some _ _ _ _ hmr
      have hrmem : r ∈ store.filter fun t => likeMatch (taskPfx P) t.id := by
        rcases hr1 with h1 | h1
        · cases h1
        · exact h1
      rw [List.mem_filter] at hrmem
      obtain ⟨n, hn1, hn2, hrid⟩ := hall r hrmem.1 (by simpa using hrmem.2)
      have hkey_r : suffixKey (taskPfx P) r.id = (n : Int) := by
        rw [hrid]
        exact suffixKey_taskIdFor _ _
      have hkey_t0 : suffixKey (taskPfx P) t0.id = (k : Int) := by
        rw [ht0id]
        exact suffixKey_taskIdFor _ _
      have hle := hr2 t0 ht0f
      rw [hkey_t0, hkey_r] at hle
      have hnk : n = k := by
        have : (k : Int) ≤ (n : Int) := hle
        have h2 : n ≤ k := hn2
        omega
      show (match trailingNum r.id with
        | some n => n + 1
        | none => 1) = k' + 1 + 1
      rw [hrid, hnk, trailingNum_taskIdFor, hk]

theorem generateTaskId_inv (P : List Char) (k : Nat) (store : TaskStore)
    (h : storeInv P k store) :
    generateTaskId P store = taskIdFor (taskPfx P) (k + 1) := by
  unfold generateTaskId
  rw [nextTaskNum_inv P k store h]
  rfl

/-! ### Helper lemmas: lookups and creation -/

theorem getTaskById_eq_none (id : List Char) (store : TaskStore) :
    getTaskById id store = none ↔ ∀ t ∈ store, t.id ≠ id := by
  unfold getTaskById
  rw [List.find?_eq_none]
  simp

theorem getTaskById_some (id : List Char) (store : TaskStore) (t : Task)
    (h : getTaskById id store = some t) : t ∈ store ∧ t.id = id := by
  unfold getTaskById at h
  refine ⟨List.mem_of_find?_eq_some h, ?_⟩
  have := List.find?_some h
  simpa using this

theorem generateTaskId_shape (q : List Char) (store : TaskStore) :
    generateTaskId q store = taskIdFor (taskPfx q) (nextTaskNum (taskPfx q) store) :=
  rfl

theorem createTask_P_step (P : List Char) (k : Nat) (store : TaskStore)
    (input : CreateTaskInput) (now : Nat)
    (hP : sanitizeProjectName input.project = P) (hne : P ≠ [])
    (hinv : storeInv P k store) :
    createTask input now store =
        (store ++ [newTask input now store], some (newTask input now store)) ∧
      (newTask input now store).id = taskIdFor (taskPfx P) (k + 1) ∧
      storeInv P (k + 1) (store ++ [newTask input now store]) := by
  have hid : generateTaskId (sanitizeProjectName input.project) store =
      taskIdFor (taskPfx P) (k + 1) := by
    rw [hP]
    exact generateTaskId_inv P k store hinv
  have hfree : getTaskById (generateTaskId (sanitizeProjectName input.project) store)
      store = none := by
    rw [hid, getTaskById_eq_none]
    intro t ht hcontra
    obtain ⟨n, hn1, hn2, hn3⟩ := hinv.1 t ht (by
      rw [hcontra]
      exact likeMatch_self _ _)
    rw [hcontra] at hn3
    have := taskIdFor_inj _ _ _ hn3
    omega
  have hempty : (sanitizeProjectName input.project).isEmpty = false := by
    rw [hP]
    cases hp : P with
    | nil => exact absurd hp hne
    | cons a b => rfl
  have hct : createTask input now store =
      (store ++ [newTask input now store], some (newTask input now store)) := by
    unfold createTask
    rw [hempty, hfree]
    simp
  have htid : (newTask input now store).id = taskIdFor (taskPfx P) (k + 1) := hid
  refine ⟨hct, htid, ?_, ?_⟩
  · intro t ht hlike
    rcases List.mem_append.mp ht with ht | ht
    · obtain ⟨n, hn1, hn2, hn3⟩ := hinv.1 t ht hlike
      exact ⟨n, hn1, by omega, hn3⟩
    · have : t = newTask input now store := by simpa using ht
      exact ⟨k + 1, by omega, le_refl _, by rw [this, htid]⟩
  · intro _
    exact ⟨newTask input now store, List.mem_append.mpr (Or.inr (by simp)), htid⟩

theorem createTask_other_inv (P : List Char) (k : Nat) (store : TaskStore)
    (input : CreateTaskInput) (now : Nat)
    (hQ : ¬pfxClash (taskPfx (sanitizeProjectName input.project)) (taskPfx P))
    (hinv : storeInv P k store) :
    storeInv P k (createTask input now store).1 := by
  unfold createTask
  split
  · exact hinv
  · split
    · exact hinv
    · constructor
      · intro t ht hlike
        rcases List.mem_append.mp ht with ht | ht
        · exact hinv.1 t ht hlike
        · exfalso
          have hteq : t = newTask input now store := by simpa using ht
          apply hQ
          apply pfxClash_of_likeMatch _ _
            (padStart3 (natDigits
              (nextTaskNum (taskPfx (sanitizeProjectName input.project)) store)))
          · intro c hc
            exact ⟨isDigit_padded _ c hc, toLower_padded _ c hc⟩
          · rw [← hlike, hteq]
            rfl
      · intro hk
        obtain ⟨t0, ht0, hid0⟩ := hinv.2 hk
        exact ⟨t0, List.mem_append.mpr (Or.inl ht0), hid0⟩

/-! ### Sequential creation runs -/

theorem runCreateSeq_inv (P : List Char) (hne : P ≠ [])
    (inputs : List (CreateTaskInput × Nat)) :
    ∀ (store : TaskStore) (k : Nat), storeInv P k store →
      (∀ pr ∈ inputs, sanitizeProjectName pr.1.project = P ∨
        ¬pfxClash (taskPfx (sanitizeProjectName pr.1.project)) (taskPfx P)) →
      runCreateSeq P inputs store =
        (List.range (inputs.countP fun pr =>
          decide (sanitizeProjectName pr.1.project = P))).map
          fun j => taskIdFor (taskPfx P) (k + 1 + j) := by
  induction inputs with
  | nil =>
    intro store k _ _
    rfl
  | cons pr rest ih =>
    intro store k hinv hcl
    obtain ⟨input, now⟩ := pr
    by_cases hp : sanitizeProjectName input.project = P
    · obtain ⟨hct, htid, hinv'⟩ := createTask_P_step P k store input now hp hne hinv
      unfold runCreateSeq
      rw [hct]
      simp only [hp, if_pos]
      rw [htid]
      rw [ih _ (k + 1) hinv' fun q hq => hcl q (List.mem_cons_of_mem _ hq)]
      have hcount : ((input, now) :: rest).countP
          (fun pr => decide (sanitizeProjectName pr.1.project = P)) =
          (rest.countP fun pr => decide (sanitizeProjectName pr.1.project = P)) + 1 := by
        rw [List.countP_cons]
        simp [hp]
      rw [hcount, List.range_succ_eq_map]
      rw [List.map_cons, List.map_map]
      congr 1
      apply List.map_congr_left
      intro j _
      show taskIdFor (taskPfx P) (k + 1 + 1 + j) = taskIdFor (taskPfx P) (k + 1 + (j + 1))
      congr 1
      omega
    · have hclash := (hcl (input, now) (List.mem_cons_self _ _)).resolve_left hp
      have hinv' := createTask_other_inv P k store input now hclash hinv
      have hcount : ((input, now) :: rest).countP
          (fun pr => decide (sanitizeProjectName pr.1.project = P)) =
          rest.countP fun pr => decide (sanitizeProjectName pr.1.project = P) := by
        rw [List.countP_cons]
        simp [hp]
      unfold runCreateSeq
      cases hct : createTask input now store with
      | mk store' res =>
        rw [hct] at hinv'
        cases res with
        | some t =>
          dsimp only
          rw [if_neg hp, hcount]
          exact ih store' k hinv' fun q hq => hcl q (List.mem_cons_of_mem _ hq)
        | none =>
          dsimp only
          rw [hcount]
          exact ih store' k hinv' fun q hq => hcl q (List.mem_cons_of_mem _ hq)

/-! ### Helper lemmas: the lifecycle updates -/

theorem countP_congr' {α : Type} (l : List α) (p q : α → Bool)
    (h : ∀ a ∈ l, p a = q a) : l.countP p = l.countP q := by
  induction l with
  | nil => rfl
  | cons a t ih =>
    rw [List.countP_cons, List.countP_cons, h a (List.mem_cons_self _ _),
      ih fun x hx => h x (List.mem_cons_of_mem _ hx)]

theorem demoteActive_id (p : List Char) (t : Task) : (demoteActive p t).id = t.id := by
  unfold demoteActive
  split <;> rfl

theorem demoteActive_project (p : List Char) (t : Task) :
    (demoteActive p t).project = t.project := by
  unfold demoteActive
  split <;> rfl

theorem demoteActive_started (p : List Char) (t : Task) :
    (demoteActive p t).started_at = t.started_at := by
  unfold demoteActive
  split <;> rfl

theorem setActive_id (id : List Char) (now : Nat) (t : Task) :
    (setActive id now t).id = t.id := by
  unfold setActive
  split <;> rfl

theorem setActive_project (id : List Char) (now : Nat) (t : Task) :
    (setActive id now t).project = t.project := by
  unfold setActive
  split <;> rfl

theorem setActive_eq (id : List Char) (now : Nat) (t : Task) (h : t.id = id) :
    (setActive id now t).status = TaskStatus.active ∧
      (setActive id now t).started_at = some (t.started_at.getD now) := by
  unfold setActive
  rw [if_pos h]
  exact ⟨rfl, rfl⟩

theorem setActive_ne (id : List Char) (now : Nat) (t : Task) (h : ¬t.id = id) :
    setActive id now t = t := by
  unfold setActive
  rw [if_neg h]

theorem getTaskById_map (id : List Char) (s : TaskStore) (f : Task → Task)
    (hf : ∀ t, (f t).id = t.id) :
    getTaskById id (s.map f) = (getTaskById id s).map f := by
  unfold getTaskById
  rw [List.find?_map]
  have hpred : ((fun t => decide (t.id = id)) ∘ f) = fun t => decide (t.id = id) := by
    funext t
    simp [Function.comp, hf]
  rw [hpred]

theorem countP_id_eq_one (store : TaskStore) (task : Task)
    (hnd : (store.map Task.id).Nodup) (hmem : task ∈ store) :
    store.countP (fun t => decide (t.id = task.id)) = 1 := by
  induction store with
  | nil => cases hmem
  | cons a l ih =>
    rw [List.map_cons, List.nodup_cons] at hnd
    rw [List.countP_cons]
    rcases List.mem_cons.mp hmem with rfl | hmem'
    · have hzero : l.countP (fun t => decide (t.id = task.id)) = 0 := by
        rw [List.countP_eq_zero]
        intro t ht
        simp only [decide_eq_true_eq]
        intro hcontra
        exact hnd.1 (by rw [← hcontra]; exact List.mem_map_of_mem _ ht)
      simp [hzero]
    · have hane : (a.id = task.id) = False := by
        simp only [eq_iff_iff, iff_false]
        intro hcontra
        exact hnd.1 (by rw [hcontra]; exact List.mem_map_of_mem _ hmem')
      rw [ih hnd.2 hmem']
      simp [hane]

theorem eq_of_mem_id (store : TaskStore) (t u : Task)
    (hnd : (store.map Task.id).Nodup) (ht : t ∈ store) (hu : u ∈ store)
    (hid : t.id = u.id) : t = u := by
  induction store with
  | nil => cases ht
  | cons a l ih =>
    rw [List.map_cons, List.nodup_cons] at hnd
    rcases List.mem_cons.mp ht with rfl | ht' <;>
      rcases List.mem_cons.mp hu with rfl | hu'
    · rfl
    · exact absurd (by rw [hid]; exact List.mem_map_of_mem _ hu') hnd.1
    · exact absurd (by rw [← hid]; exact List.mem_map_of_mem _ ht') hnd.1
    · exact ih hnd.2 ht' hu'

theorem wf_createTask (input : CreateTaskInput) (now : Nat) (s : TaskStore)
    (h : WFStore s) : WFStore (createTask input now s).1 := by
  unfold createTask
  split
  · exact h
  · split
    · exact h
    · rename_i hdup
      have hfree : ∀ t ∈ s,
          t.id ≠ generateTaskId (sanitizeProjectName input.project) s := by
        rw [← getTaskById_eq_none]
        exact Option.not_isSome_iff_eq_none.mp hdup
      constructor
      · rw [List.map_append, List.nodup_append]
        refine ⟨h.1, by simp, ?_⟩
        intro x hx
        simp only [List.map_cons, List.map_nil, List.mem_singleton]
        rw [List.mem_map] at hx
        obtain ⟨t, ht, rfl⟩ := hx
        intro hcontra
        exact hfree t ht (by rw [hcontra]; rfl)
      · intro p
        rw [List.countP_append]
        have hnew : ([newTask input now s].countP (isActiveIn p)) = 0 := by
          simp [isActiveIn, newTask]
        rw [hnew]
        simpa using h.2 p

theorem isActiveIn_demote (p : List Char) (t : Task) :
    isActiveIn p (demoteActive p t) = false := by
  unfold isActiveIn demoteActive
  split
  · simp
  · rename_i hcond
    simpa using hcond

theorem wf_activateTask (id : List Char) (now : Nat) (s : TaskStore)
    (h : WFStore s) : WFStore (activateTask id now s).1 := by
  unfold activateTask
  cases hg : getTaskById id s with
  | none => exact h
  | some task =>
    dsimp only
    split
    · exact h
    · have hmem := (getTaskById_some _ _ _ hg).1
      have hid := (getTaskById_some _ _ _ hg).2
      have hrowid : ∀ t, (setActive id now (demoteActive task.project t)).id = t.id := by
        intro t
        rw [setActive_id, demoteActive_id]
      have hids : ((s.map (demoteActive task.project)).map (setActive id now)).map
          Task.id = s.map Task.id := by
        rw [List.map_map, List.map_map]
        apply List.map_congr_left
        intro t _
        exact hrowid t
      have hwfs2 : WFStore ((s.map (demoteActive task.project)).map
          (setActive id now)) := by
        constructor
        · rw [hids]
          exact h.1
        · intro p
          rw [List.countP_map, List.countP_map]
          by_cases hp : p = task.project
          · subst hp
            have hpt : ∀ t ∈ s,
                ((isActiveIn task.project ∘ setActive id now) ∘
                  demoteActive task.project) t = decide (t.id = task.id) := by
              intro t ht
              simp only [Function.comp_apply]
              by_cases hti : t.id = id
              · have hteq : t = task :=
                  eq_of_mem_id s t task h.1 ht hmem (by rw [hti, hid])
                subst hteq
                have hstat := (setActive_eq id now (demoteActive t.project t)
                  (by rw [demoteActive_id]; exact hti)).1
                have h1 : isActiveIn t.project
                    (setActive id now (demoteActive t.project t)) = true := by
                  unfold isActiveIn
                  rw [decide_eq_true_eq]
                  exact ⟨by rw [setActive_project, demoteActive_project], hstat⟩
                rw [h1]
                simp
              · rw [setActive_ne id now _ (by rw [demoteActive_id]; exact hti)]
                rw [isActiveIn_demote]
                symm
                simp only [decide_eq_false_iff_not]
                intro hcontra
                exact hti (by rw [hcontra, hid])
            rw [countP_congr' s _ _ hpt]
            rw [countP_id_eq_one s task h.1 hmem]
          · have hpt : ∀ t ∈ s,
                ((isActiveIn p ∘ setActive id now) ∘ demoteActive task.project) t =
                  isActiveIn p t := by
              intro t ht
              simp only [Function.comp_apply]
              by_cases hti : t.id = id
              · have hteq : t = task :=
                  eq_of_mem_id s t task h.1 ht hmem (by rw [hti, hid])
                subst hteq
                have h1 : isActiveIn p
                    (setActive id now (demoteActive t.project t)) = false := by
                  unfold isActiveIn
                  simp only [decide_eq_false_iff_not]
                  intro hcontra
                  apply hp
                  rw [← hcontra.1, setActive_project, demoteActive_project]
                rw [h1]
                symm
                unfold isActiveIn
                simp only [decide_eq_false_iff_not]
                intro hcontra
                exact hp hcontra.1.symm
              · rw [setActive_ne id now _ (by rw [demoteActive_id]; exact hti)]
                unfold demoteActive
                split
                · rename_i hcond
                  have hne2 : ¬(t.project = p) := by
                    rw [hcond.1]
                    exact fun hcontra => hp hcontra.symm
                  simp [isActiveIn, hne2]
                · rfl
            rw [countP_congr' s _ _ hpt]
            exact h.2 p
      cases getTaskById id ((s.map (demoteActive task.project)).map
        (setActive id now)) <;> exact hwfs2

theorem wf_completeTask (id : List Char) (now : Nat) (s : TaskStore)
    (h : WFStore s) : WFStore (completeTask id now s).1 := by
  unfold completeTask
  cases hg : getTaskById id s with
  | none => exact h
  | some task =>
    constructor
    · have : (s.map fun t =>
          if t.id = id then
            { t with status := TaskStatus.completed, completed_at := some now }
          else t).map Task.id = s.map Task.id := by
        rw [List.map_map]
        apply List.map_congr_left
        intro t _
        simp only [Function.comp_apply]
        split <;> rfl
      rw [this]
      exact h.1
    · intro p
      rw [List.countP_map]
      refine le_trans (List.countP_mono_left ?_) (h.2 p)
      intro t _ hpt
      simp only [Function.comp_apply] at hpt
      split at hpt
      · exact absurd hpt (by simp [isActiveIn])
      · exact hpt

theorem wf_cancelTask (id : List Char) (s : TaskStore)
    (h : WFStore s) : WFStore (cancelTask id s).1 := by
  unfold cancelTask
  cases hg : getTaskById id s with
  | none => exact h
  | some task =>
    constructor
    · have : (s.map fun t =>
          if t.id = id then { t with status := TaskStatus.cancelled } else t).map
            Task.id = s.map Task.id := by
        rw [List.map_map]
        apply List.map_congr_left
        intro t _
        simp only [Function.comp_apply]
        split <;> rfl
      rw [this]
      exact h.1
    · intro p
      rw [List.countP_map]
      refine le_trans (List.countP_mono_left ?_) (h.2 p)
      intro t _ hpt
      simp only [Function.comp_apply] at hpt
      split at hpt
      · exact absurd hpt (by simp [isActiveIn])
      · exact hpt

theorem wf_deleteTask (id : List Char) (s : TaskStore)
    (h : WFStore s) : WFStore (deleteTask id s).1 := by
  unfold deleteTask
  cases hg : getTaskById id s with
  | none => exact h
  | some task =>
    have hsub : List.Sublist (s.filter fun t => ¬(t.id = id)) s :=
      List.filter_sublist s
    constructor
    · exact ((hsub.map Task.id).nodup h.1)
    · intro p
      exact le_trans (hsub.countP_le _) (h.2 p)

theorem wf_applyOp (s : TaskStore) (op : Op) (h : WFStore s) :
    WFStore (applyOp s op) := by
  cases op with
  | create input now => exact wf_createTask input now s h
  | activate id now => exact wf_activateTask id now s h
  | complete id now => exact wf_completeTask id now s h
  | cancel id => exact wf_cancelTask id s h
  | delete id => exact wf_deleteTask id s h

theorem wf_foldl (ops : List Op) :
    ∀ s : TaskStore, WFStore s → WFStore (ops.foldl applyOp s) := by
  induction ops with
  | nil => intro s h; exact h
  | cons op rest ih =>
    intro s h
    exact ih (applyOp s op) (wf_applyOp s op h)

theorem wf_nil : WFStore [] := by
  constructor
  · simp
  · intro p
    simp

theorem wf_runOps (ops : List Op) : WFStore (runOps ops) :=
  wf_foldl ops [] wf_nil

/-! ### Claim C1 -/

/-- C1: starting from the empty store, after any sequential sequence of
`createTask`, `activateTask`, `completeTask`, `cancelTask` and
`deleteTask` calls, every project has at most one task with status
`active`; moreover a successful `activateTask` leaves the target as the
only active task of its project, having demoted every other previously
active task of that project to `queued`. -/
theorem c1_single_active (ops : List Op) (p : List Char) (id : List Char)
    (now : Nat) :
    (runOps ops).countP (isActiveIn p) ≤ 1 ∧
      ∀ s' u, activateTask id now (runOps ops) = (s', ActivateResult.ok u) →
        ∀ t ∈ s', t.project = u.project → t.status = TaskStatus.active →
          t.id = u.id := by
  have hwf := wf_runOps ops
  refine ⟨hwf.2 p, ?_⟩
  intro s' u hact t ht htp hts
  generalize hsdef : runOps ops = s at hact hwf ht
  unfold activateTask at hact
  cases hg : getTaskById id s with
  | none =>
    rw [hg] at hact
    cases hact
  | some task =>
    rw [hg] at hact
    dsimp only at hact
    split at hact
    · cases hact
    · have hmem := (getTaskById_some _ _ _ hg).1
      have hid := (getTaskById_some _ _ _ hg).2
      have hrowid : ∀ w, (setActive id now (demoteActive task.project w)).id = w.id := by
        intro w
        rw [setActive_id, demoteActive_id]
      cases hg2 : getTaskById id
          ((s.map (demoteActive task.project)).map (setActive id now)) with
      | none =>
        rw [hg2] at hact
        cases hact
      | some v =>
        rw [hg2] at hact
        cases hact
        have huid : u.id = id := (getTaskById_some _ _ _ hg2).2
        rw [huid]
        obtain ⟨w, hw, rfl⟩ := by
          rw [List.map_map] at ht
          exact List.mem_map.mp ht
        simp only [Function.comp_apply] at htp hts ⊢
        by_cases hwi : w.id = id
        · rw [hrowid w]
          exact hwi
        · exfalso
          rw [setActive_ne id now _ (by rw [demoteActive_id]; exact hwi)] at hts htp
          have hup : u.project = task.project := by
            have humem := (getTaskById_some _ _ _ hg2).1
            rw [List.map_map] at humem
            obtain ⟨w', hw', hweq⟩ := List.mem_map.mp humem
            have hw'id : w'.id = id := by
              rw [← huid, ← hweq]
              simp only [Function.comp_apply]
              exact (hrowid w').symm
            have : w' = task := eq_of_mem_id s w' task hwf.1 hw' hmem (by rw [hw'id, hid])
            subst this
            rw [← hweq]
            simp only [Function.comp_apply]
            rw [setActive_project, demoteActive_project]
          rw [hup] at htp
          unfold demoteActive at hts htp
          rcases Classical.em (w.project = task.project ∧
              w.status = TaskStatus.active) with hcond | hcond
          · rw [if_pos hcond] at hts
            simp at hts
          · rw [if_neg hcond] at hts htp
            exact hcond ⟨htp, hts⟩

/-- C1 witness: after creating two `demo` tasks and activating the
first, activating the second succeeds and leaves it the only active task
of the project. -/
theorem c1_single_active_witness :
    (runOps [Op.create (mkCreate demoP) 1, Op.create (mkCreate demoP) 2,
        Op.activate (taskIdFor (taskPfx demoP) 1) 3]).countP
        (isActiveIn demoP) ≤ 1 ∧
      ∀ s' u, activateTask (taskIdFor (taskPfx demoP) 2) 4
          (runOps [Op.create (mkCreate demoP) 1, Op.create (mkCreate demoP) 2,
            Op.activate (taskIdFor (taskPfx demoP) 1) 3]) =
          (s', ActivateResult.ok u) →
        ∀ t ∈ s', t.project = u.project → t.status = TaskStatus.active →
          t.id = u.id :=
  c1_single_active
    [Op.create (mkCreate demoP) 1, Op.create (mkCreate demoP) 2,
      Op.activate (taskIdFor (taskPfx demoP) 1) 3]
    demoP (taskIdFor (taskPfx demoP) 2) 4

/-! ### Claim C2 -/

/-- C2 (amended): after sequential `createTask` calls, provided no other
interleaved creation targets a project whose 10-character uppercase
prefix equals that of `P` or extends it across a dash, the ids returned
for project `P` are `prefix-NNN` with `prefix = uppercase(P)` truncated
to 10 characters and zero-padded (width 3) suffixes exactly `1, 2, …, N`
in order — strictly increasing from 1 with no gaps or repeats, each
allocation being the maximum existing suffix plus one. -/
theorem c2_sequential_ids (P : List Char) (inputs : List (CreateTaskInput × Nat))
    (hne : P ≠ [])
    (hcl : ∀ pr ∈ inputs, sanitizeProjectName pr.1.project = P ∨
      ¬pfxClash (taskPfx (sanitizeProjectName pr.1.project)) (taskPfx P)) :
    runCreateSeq P inputs [] =
      (List.range (inputs.countP fun pr =>
        decide (sanitizeProjectName pr.1.project = P))).map
        fun j => taskIdFor (taskPfx P) (j + 1) := by
  rw [runCreateSeq_inv P hne inputs [] 0 (storeInv_nil P) hcl]
  apply List.map_congr_left
  intro j _
  show taskIdFor (taskPfx P) (0 + 1 + j) = taskIdFor (taskPfx P) (j + 1)
  congr 1
  omega

/-- C2 witness: two creations for `demo` interleaved with one for a
non-colliding project return exactly `DEMO-001` then `DEMO-002`. -/
theorem c2_sequential_ids_witness :
    demoP ≠ [] ∧
      (∀ pr ∈ c2WInputs, sanitizeProjectName pr.1.project = demoP ∨
        ¬pfxClash (taskPfx (sanitizeProjectName pr.1.project)) (taskPfx demoP)) ∧
      runCreateSeq demoP c2WInputs [] =
        (List.range (c2WInputs.countP fun pr =>
          decide (sanitizeProjectName pr.1.project = demoP))).map
          fun j => taskIdFor (taskPfx demoP) (j + 1) :=
  ⟨by decide, by decide, c2_sequential_ids demoP c2WInputs (by decide) (by decide)⟩

/-- C2 counterexample: with interleaved creations for the two
eleven-character projects `projA` and `projB`, which share their
10-character prefix, the two ids returned for `projA` carry suffixes 1
and 3 — a gap, refuting the claim as frozen. -/
theorem c2_counterexample :
    runCreateSeq projA c2Inputs [] =
        [taskIdFor (taskPfx projA) 1, taskIdFor (taskPfx projA) 3] ∧
      runCreateSeq projA c2Inputs [] ≠
        (List.range (c2Inputs.countP fun pr =>
          decide (sanitizeProjectName pr.1.project = projA))).map
          fun j => taskIdFor (taskPfx projA) (j + 1) := by
  constructor
  · decide
  · decide

/-! ### Claim C3 -/

/-- C3 (amended): each `createTask` for a prefix allocates the current
maximum suffix plus one, strictly greater than every suffix currently in
the store, and deleting any task other than the one holding the maximum
suffix preserves the allocation state; deleting the maximum holder,
however, lets a later creation reuse its number (see the
counterexample). -/
theorem c3_alloc_max_plus_one (P : List Char) (k : Nat) (store : TaskStore)
    (input : CreateTaskInput) (now : Nat)
    (hne : P ≠ []) (hP : sanitizeProjectName input.project = P)
    (hinv : storeInv P k store) :
    ((createTask input now store).2.map Task.id =
        some (taskIdFor (taskPfx P) (k + 1)) ∧
      (∀ t ∈ store, likeMatch (taskPfx P) t.id = true →
        suffixKey (taskPfx P) t.id < ((k : Int) + 1))) ∧
      ∀ id, id ≠ taskIdFor (taskPfx P) k →
        storeInv P k (deleteTask id store).1 := by
  obtain ⟨hct, htid, -⟩ := createTask_P_step P k store input now hP hne hinv
  refine ⟨⟨?_, ?_⟩, ?_⟩
  · rw [hct]
    simp [htid]
  · intro t ht hlike
    obtain ⟨n, hn1, hn2, hn3⟩ := hinv.1 t ht hlike
    rw [hn3, suffixKey_taskIdFor]
    omega
  · intro id hid
    unfold deleteTask
    cases hg : getTaskById id store with
    | none => exact hinv
    | some u =>
      constructor
      · intro t ht hlike
        exact hinv.1 t (List.mem_of_mem_filter ht) hlike
      · intro hk
        obtain ⟨t0, ht0, hid0⟩ := hinv.2 hk
        refine ⟨t0, ?_, hid0⟩
        rw [List.mem_filter]
        refine ⟨ht0, ?_⟩
        simp only [decide_eq_true_eq]
        rw [hid0]
        intro hcontra
        exact hid hcontra.symm

/-- C3 witness: on the empty store a creation for `demo` allocates
`DEMO-001`, and deleting a different id preserves the allocation
state. -/
theorem c3_alloc_witness :
    demoP ≠ [] ∧ sanitizeProjectName (mkCreate demoP).project = demoP ∧
      storeInv demoP 0 [] ∧
      (((createTask (mkCreate demoP) 7 ([] : TaskStore)).2.map Task.id =
          some (taskIdFor (taskPfx demoP) (0 + 1)) ∧
        (∀ t ∈ ([] : TaskStore), likeMatch (taskPfx demoP) t.id = true →
          suffixKey (taskPfx demoP) t.id < (((0 : Nat) : Int) + 1))) ∧
        ∀ id, id ≠ taskIdFor (taskPfx demoP) 0 →
          storeInv demoP 0 (deleteTask id ([] : TaskStore)).1) :=
  ⟨by decide, by decide, storeInv_nil demoP,
    c3_alloc_max_plus_one demoP 0 [] (mkCreate demoP) 7 (by decide) (by decide)
      (storeInv_nil demoP)⟩

/-- C3 counterexample: `DEMO-002` is allocated, the task holding it is
deleted, and the next creation allocates `DEMO-002` again — a previously
allocated number is reused after a deletion, refuting the claim as
frozen. -/
theorem c3_counterexample :
    (createTask (mkCreate demoP) 2 c3Store1).2.map Task.id =
        some (taskIdFor (taskPfx demoP) 2) ∧
      (deleteTask (taskIdFor (taskPfx demoP) 2) c3Store2).2 = true ∧
      (createTask (mkCreate demoP) 3 c3Store3).2.map Task.id =
        some (taskIdFor (taskPfx demoP) 2) := by
  refine ⟨by decide, by decide, by decide⟩

/-! ### Claim C4 -/

/-- C4: `activateTask` on an existing task whose current status is
`completed` or `cancelled` returns the domain error whose message names
the current status, and returns the store unchanged — no field of any
task is mutated. -/
theorem c4_activate_terminal_error (store : TaskStore) (id : List Char)
    (now : Nat) (task : Task) (hfind : getTaskById id store = some task)
    (hterm : task.status = TaskStatus.completed ∨
      task.status = TaskStatus.cancelled) :
    activateTask id now store =
        (store, ActivateResult.domainError (cannotActivateMsg task.status)) ∧
      cannotActivateMsg task.status =
        ['C', 'a', 'n', 'n', 'o', 't', ' ', 'a', 'c', 't', 'i', 'v', 'a', 't',
         'e', ' ', 't', 'a', 's', 'k', ' ', 'w', 'i', 't', 'h', ' ', 's', 't',
         'a', 't', 'u', 's', ':', ' '] ++ statusStr task.status := by
  constructor
  · unfold activateTask
    rw [hfind]
    dsimp only
    rw [if_pos hterm]
  · rfl

/-- C4 witness: activating the concrete completed task errors with the
message naming `completed` and leaves the store unchanged. -/
theorem c4_activate_terminal_error_witness :
    getTaskById (taskIdFor (taskPfx demoP) 1) c4Store = some c4Task ∧
      (c4Task.status = TaskStatus.completed ∨
        c4Task.status = TaskStatus.cancelled) ∧
      (activateTask (taskIdFor (taskPfx demoP) 1) 9 c4Store =
          (c4Store, ActivateResult.domainError (cannotActivateMsg c4Task.status)) ∧
        cannotActivateMsg c4Task.status =
          ['C', 'a', 'n', 'n', 'o', 't', ' ', 'a', 'c', 't', 'i', 'v', 'a', 't',
           'e', ' ', 't', 'a', 's', 'k', ' ', 'w', 'i', 't', 'h', ' ', 's', 't',
           'a', 't', 'u', 's', ':', ' '] ++ statusStr c4Task.status) :=
  ⟨by decide, by decide,
    c4_activate_terminal_error c4Store (taskIdFor (taskPfx demoP) 1) 9 c4Task
      (by decide) (by decide)⟩

/-! ### Claim C5 -/

/-- C5: activating the same id twice in a row leaves the task's
`started_at` unchanged after the second call: `started_at` is set by
`COALESCE` only when unset, so repeated re-activations never overwrite
the first activation timestamp.  The equation holds for every store,
id, and pair of activation times. -/
theorem c5_started_at_idempotent (store : TaskStore) (id : List Char)
    (n1 n2 : Nat) :
    (getTaskById id (activateTask id n2 (activateTask id n1 store).1).1).map
        Task.started_at =
      (getTaskById id (activateTask id n1 store).1).map Task.started_at := by
  cases hg : getTaskById id store with
  | none =>
    have h1 : (activateTask id n1 store).1 = store := by
      unfold activateTask
      rw [hg]
    have h2 : (activateTask id n2 store).1 = store := by
      unfold activateTask
      rw [hg]
    rw [h1, h2]
  | some task =>
    by_cases hterm : task.status = TaskStatus.completed ∨
        task.status = TaskStatus.cancelled
    · have h1 : (activateTask id n1 store).1 = store := by
        unfold activateTask
        rw [hg]
        dsimp only
        rw [if_pos hterm]
      have h2 : (activateTask id n2 store).1 = store := by
        unfold activateTask
        rw [hg]
        dsimp only
        rw [if_pos hterm]
      rw [h1, h2]
    · have hid := (getTaskById_some _ _ _ hg).2
      have h1 : (activateTask id n1 store).1 =
          (store.map (demoteActive task.project)).map (setActive id n1) := by
        unfold activateTask
        rw [hg]
        dsimp only
        rw [if_neg hterm]
        cases getTaskById id ((store.map (demoteActive task.project)).map
          (setActive id n1)) <;> rfl
      have hfind1 : getTaskById id ((store.map (demoteActive task.project)).map
          (setActive id n1)) =
          some (setActive id n1 (demoteActive task.project task)) := by
        rw [getTaskById_map _ _ _ (fun t => setActive_id id n1 t),
          getTaskById_map _ _ _ (fun t => demoteActive_id task.project t), hg]
        rfl
      have ht1id : (setActive id n1 (demoteActive task.project task)).id = id := by
        rw [setActive_id, demoteActive_id, hid]
      have ht1stat : (setActive id n1 (demoteActive task.project task)).status =
          TaskStatus.active :=
        (setActive_eq id n1 _ (by rw [demoteActive_id, hid])).1
      have ht1start : (setActive id n1 (demoteActive task.project task)).started_at =
          some (task.started_at.getD n1) := by
        rw [(setActive_eq id n1 _ (by rw [demoteActive_id, hid])).2,
          demoteActive_started]
      have hterm1 : ¬((setActive id n1 (demoteActive task.project task)).status =
          TaskStatus.completed ∨
          (setActive id n1 (demoteActive task.project task)).status =
            TaskStatus.cancelled) := by
        rw [ht1stat]
        rintro (h | h) <;> cases h
      have h2 : (activateTask id n2 ((store.map (demoteActive task.project)).map
          (setActive id n1))).1 =
          (((store.map (demoteActive task.project)).map (setActive id n1)).map
            (demoteActive (setActive id n1 (demoteActive task.project task)).project)).map
            (setActive id n2) := by
        unfold activateTask
        rw [hfind1]
        dsimp only
        rw [if_neg hterm1]
        cases getTaskById id ((((store.map (demoteActive task.project)).map
          (setActive id n1)).map
          (demoteActive (setActive id n1 (demoteActive task.project task)).project)).map
          (setActive id n2)) <;> rfl
      have hfind2 : getTaskById id ((((store.map (demoteActive task.project)).map
          (setActive id n1)).map
          (demoteActive (setActive id n1 (demoteActive task.project task)).project)).map
          (setActive id n2)) =
          some (setActive id n2
            (demoteActive (setActive id n1 (demoteActive task.project task)).project
              (setActive id n1 (demoteActive task.project task)))) := by
        rw [getTaskById_map _ _ _ (fun t => setActive_id id n2 t),
          getTaskById_map _ _ _ (fun t => demoteActive_id _ t), hfind1]
        rfl
      rw [h1, h2, hfind1, hfind2]
      simp only [Option.map_some']
      congr 1
      rw [(setActive_eq id n2 _ (by rw [demoteActive_id, ht1id])).2,
        demoteActive_started, ht1start]
      rfl

/-! ### Claim C9 -/

/-- C9: `getQueuedTasks` returns exactly the project's tasks with status
`queued`, ordered by priority rank ascending (CRITICAL 0, HIGH 1, NORMAL
2, LOW 3) with `created_at` ascending as tie-break, truncated to the
limit: the result is sorted, consists only of queued tasks of the
project, has length `min limit count`, is a permutation of all of them
when the limit suffices — and on the concrete example with A (`LOW`),
B (`CRITICAL`), C (`NORMAL`) in project `demo` it returns `[B, C, A]`. -/
theorem c9_queue_order (project : List Char) (limit : Nat) (store : TaskStore) :
    List.Sorted queuedLE (getQueuedTasks project limit store) ∧
      (∀ t ∈ getQueuedTasks project limit store,
        t.project = sanitizeProjectName project ∧ t.status = TaskStatus.queued) ∧
      (getQueuedTasks project limit store).length =
        min limit (store.filter fun t =>
          t.project = sanitizeProjectName project ∧
            t.status = TaskStatus.queued).length ∧
      ((store.filter fun t => t.project = sanitizeProjectName project ∧
          t.status = TaskStatus.queued).length ≤ limit →
        (getQueuedTasks project limit store).Perm
          (store.filter fun t => t.project = sanitizeProjectName project ∧
            t.status = TaskStatus.queued)) ∧
      (getQueuedTasks demoP 10 queueStore).map Task.title =
        [['B'], ['C'], ['A']] := by
  have hperm := List.perm_insertionSort queuedLE
    (store.filter fun t => t.project = sanitizeProjectName project ∧
      t.status = TaskStatus.queued)
  have hsorted := List.sorted_insertionSort queuedLE
    (store.filter fun t => t.project = sanitizeProjectName project ∧
      t.status = TaskStatus.queued)
  refine ⟨?_, ?_, ?_, ?_, by decide⟩
  · exact hsorted.sublist (List.take_sublist _ _)
  · intro t ht
    have h1 : t ∈ (store.filter fun t =>
        t.project = sanitizeProjectName project ∧
          t.status = TaskStatus.queued).insertionSort queuedLE :=
      List.mem_of_mem_take ht
    have h2 := hperm.mem_iff.mp h1
    rw [List.mem_filter] at h2
    simpa using h2.2
  · unfold getQueuedTasks
    rw [List.length_take, hperm.length_eq]
  · intro hle
    unfold getQueuedTasks
    rw [List.take_of_length_le (by rw [hperm.length_eq]; exact hle)]
    exact hperm

/-- C9 witness: the concrete example store instantiates every conjunct,
including the permutation property under a sufficient limit. -/
theorem c9_queue_order_witness :
    List.Sorted queuedLE (getQueuedTasks demoP 10 queueStore) ∧
      (queueStore.filter fun t => t.project = sanitizeProjectName demoP ∧
        t.status = TaskStatus.queued).length ≤ 10 ∧
      (getQueuedTasks demoP 10 queueStore).Perm
        (queueStore.filter fun t => t.project = sanitizeProjectName demoP ∧
          t.status = TaskStatus.queued) ∧
      (getQueuedTasks demoP 10 queueStore).map Task.title = [['B'], ['C'], ['A']] :=
  ⟨(c9_queue_order demoP 10 queueStore).1, by decide,
    (c9_queue_order demoP 10 queueStore).2.2.2.1 (by decide),
    (c9_queue_order demoP 10 queueStore).2.2.2.2⟩

/-! ### Claim C6 -/

/-- C6: for every user, clock and row set, `checkRateLimit` computes
exactly the admission decision written from the specification: count the
rows strictly inside the rolling 24-hour window; below 2 allow with
`2 - count` remaining; otherwise block with remaining 0, limit 2 and
`resetIn = max(0, ceil((oldest + 86400 s - now) / 1000))`, `oldest` being
the minimum `created_at` in that window. -/
theorem c6_rate_limit (userId : List Char) (now : Int) (rows : List Feedback) :
    checkRateLimit userId now rows = checkRateLimitSpec userId now rows := by
  unfold checkRateLimit checkRateLimitSpec DAILY_LIMIT DAY_IN_SECONDS
  by_cases hlt : (windowRows userId now rows).length < 2
  · have hrem : ¬(2 - (windowRows userId now rows).length = 0 ∧
        ¬(windowRows userId now rows).isEmpty = true) := by
      intro hcontra
      omega
    rw [if_neg hrem, if_pos hlt]
  · have hlen : 2 ≤ (windowRows userId now rows).length := by omega
    have hne : (windowRows userId now rows).isEmpty = false := by
      cases hw : windowRows userId now rows with
      | nil =>
        rw [hw] at hlen
        simp at hlen
      | cons a b => rfl
    have hrem : 2 - (windowRows userId now rows).length = 0 ∧
        ¬(windowRows userId now rows).isEmpty = true := by
      constructor
      · omega
      · rw [hne]
        simp
    rw [if_pos hrem, if_neg hlt]
    cases hw : windowRows userId now rows with
    | nil =>
      rw [hw] at hlen
      simp at hlen
    | cons a b =>
      simp [listMin?]

/-! ### Claim C7 -/

/-- C7: for a matched text and non-empty query the relevance score is
exactly `min(base + prefixBonus + wordBonus, 1)`, where `base =
min(n * 0.2, 1)` with `n` the number of non-overlapping case-insensitive
occurrences, the prefix bonus is 0.3 when the text starts with the query
case-insensitively, the word bonus is 0.2 when the query occurs as a
whole word, and the final score always lies in `[0, 1]`. -/
theorem c7_score (text searchTerm : List Char) (h : searchTerm ≠ []) :
    calculateScore text searchTerm =
        min (min ((countOcc (lowerStr searchTerm) (lowerStr text) : ℚ) * (2 / 10)) 1 +
          (if startsWithB (lowerStr searchTerm) (lowerStr text) = true then
            (3 : ℚ) / 10 else 0) +
          (if wordMatchB (lowerStr text) (lowerStr searchTerm) = true then
            (2 : ℚ) / 10 else 0)) 1 ∧
      0 ≤ calculateScore text searchTerm ∧ calculateScore text searchTerm ≤ 1 := by
  have key : calculateScore text searchTerm =
      min (min ((countOcc (lowerStr searchTerm) (lowerStr text) : ℚ) * (2 / 10)) 1 +
        (if startsWithB (lowerStr searchTerm) (lowerStr text) = true then
          (3 : ℚ) / 10 else 0) +
        (if wordMatchB (lowerStr text) (lowerStr searchTerm) = true then
          (2 : ℚ) / 10 else 0)) 1 := by
    simp only [calculateScore]
    split_ifs <;> ring_nf
  have hbase : (0 : ℚ) ≤
      min ((countOcc (lowerStr searchTerm) (lowerStr text) : ℚ) * (2 / 10)) 1 :=
    le_min (by positivity) (by norm_num)
  have hi1 : (0 : ℚ) ≤ (if startsWithB (lowerStr searchTerm) (lowerStr text) = true
      then (3 : ℚ) / 10 else 0) := by
    split <;> norm_num
  have hi2 : (0 : ℚ) ≤ (if wordMatchB (lowerStr text) (lowerStr searchTerm) = true
      then (2 : ℚ) / 10 else 0) := by
    split <;> norm_num
  refine ⟨key, ?_, ?_⟩
  · rw [key]
    exact le_min (add_nonneg (add_nonneg hbase hi1) hi2) (by norm_num)
  · rw [key]
    exact min_le_right _ _

/-- C7 witness: the score of the example note text for the query
`TypeScript` instantiates the formula and the bounds. -/
theorem c7_score_witness :
    exScoreQuery ≠ [] ∧
      (calculateScore exNoteText exScoreQuery =
          min (min ((countOcc (lowerStr exScoreQuery) (lowerStr exNoteText) : ℚ) *
            (2 / 10)) 1 +
            (if startsWithB (lowerStr exScoreQuery) (lowerStr exNoteText) = true then
              (3 : ℚ) / 10 else 0) +
            (if wordMatchB (lowerStr exNoteText) (lowerStr exScoreQuery) = true then
              (2 : ℚ) / 10 else 0)) 1 ∧
        0 ≤ calculateScore exNoteText exScoreQuery ∧
        calculateScore exNoteText exScoreQuery ≤ 1) :=
  ⟨by decide, c7_score exNoteText exScoreQuery (by decide)⟩

/-! ### Claim C10 -/

/-- C10: `createTask` never rejects a title for its length: whenever it
succeeds, the stored and returned title is exactly `truncate(title,
200)` — the first 200 characters when longer, the unchanged title
otherwise — and on the empty store every input with a valid project
succeeds. -/
theorem c10_title_truncation :
    (∀ (store : TaskStore) (input : CreateTaskInput) (now : Nat) (t : Task),
      (createTask input now store).2 = some t →
        t.title = truncate input.title 200 ∧
          (input.title.length ≤ 200 → t.title = input.title) ∧
          (200 < input.title.length → t.title = input.title.take 200)) ∧
      ∀ (input : CreateTaskInput) (now : Nat),
        sanitizeProjectName input.project ≠ [] →
          ∃ t, (createTask input now ([] : TaskStore)).2 = some t := by
  constructor
  · intro store input now t hct
    unfold createTask at hct
    split at hct
    · cases hct
    · split at hct
      · cases hct
      · cases hct
        refine ⟨rfl, ?_, ?_⟩
        · intro hle
          show truncate input.title 200 = input.title
          unfold truncate
          rw [if_pos hle]
        · intro hgt
          show truncate input.title 200 = input.title.take 200
          unfold truncate
          rw [if_neg (by omega)]
  · intro input now hproj
    have h1 : (sanitizeProjectName input.project).isEmpty = false := by
      cases hp : sanitizeProjectName input.project with
      | nil => exact absurd hp hproj
      | cons a b => rfl
    refine ⟨newTask input now [], ?_⟩
    unfold createTask
    rw [if_neg (by rw [h1]; simp)]
    rw [if_neg (by simp [getTaskById])]

set_option maxRecDepth 40000 in
/-- C10 witness: a 201-character title is accepted and stored as its
first 200 characters. -/
theorem c10_title_truncation_witness :
    (createTask longInput 1 ([] : TaskStore)).2 = some (newTask longInput 1 []) ∧
      200 < longInput.title.length ∧
      (newTask longInput 1 []).title = longInput.title.take 200 ∧
      sanitizeProjectName longInput.project ≠ [] ∧
      ∃ t, (createTask longInput 1 ([] : TaskStore)).2 = some t := by
  refine ⟨by decide, by decide, ?_, by decide,
    c10_title_truncation.2 longInput 1 (by decide)⟩
  exact (c10_title_truncation.1 [] longInput 1 (newTask longInput 1 [])
    (by decide)).2.2 (by decide)

/-! ### Claim C8 -/

theorem indexOfSub_le_length (pat text : List Char) (i : Nat)
    (h : indexOfSub pat text = some i) : i ≤ text.length := by
  induction text generalizing i with
  | nil =>
    unfold indexOfSub at h
    split at h
    · cases h
      exact le_refl _
    · cases h
  | cons c cs ih =>
    unfold indexOfSub at h
    split at h
    · cases h
      simp
    · cases hi : indexOfSub pat cs with
      | none => rw [hi] at h; cases h
      | some j =>
        rw [hi] at h
        simp only [Option.map_some'] at h
        cases h
        have := ih j hi
        simp only [List.length_cons]
        omega

theorem startsWithB_append_right (pat x y : List Char)
    (h : startsWithB pat x = true) : startsWithB pat (x ++ y) = true := by
  rw [startsWithB_iff] at h ⊢
  exact h.trans (List.prefix_append x y)

theorem containsSub_append_right (pat text post : List Char)
    (h : containsSub pat text = true) : containsSub pat (text ++ post) = true := by
  unfold containsSub at h
  cases hi : indexOfSub pat text with
  | none => rw [hi] at h; cases h
  | some i =>
    have hs := indexOfSub_startsWith pat text i hi
    apply containsSub_of_startsWith pat (text ++ post) i
    rw [List.drop_append_eq_append_drop]
    exact startsWithB_append_right _ _ _ hs

theorem lastIndexOfSpaceLe_lt (text : List Char) (pos j : Nat)
    (h : lastIndexOfSpaceLe text pos = some j) : j < text.length := by
  unfold lastIndexOfSpaceLe at h
  have hmem := List.mem_of_find?_eq_some h
  rw [List.mem_reverse, List.mem_range] at hmem
  exact hmem

theorem lowerStr_length (l : List Char) : (lowerStr l).length = l.length :=
  List.length_map l Char.toLower

theorem snippetRadius_nonneg (q : List Char) (ml : Nat) (h : q.length ≤ ml) :
    0 ≤ snippetRadius q ml := by
  unfold snippetRadius
  apply Int.fdiv_nonneg _ (by norm_num)
  omega

theorem snippetStart_bounds (text q : List Char) (ml i : Nat)
    (hrad : 0 ≤ snippetRadius q ml) :
    0 ≤ snippetStart text q ml i ∧ snippetStart text q ml i ≤ (i : Int) := by
  unfold snippetStart
  dsimp only
  split
  · split
    · split
      · rename_i hsp
        constructor
        · positivity
        · omega
      · constructor <;> omega
    · constructor <;> omega
  · constructor <;> omega

theorem snippetEnd_bounds (text q : List Char) (ml i : Nat)
    (hrad : 0 ≤ snippetRadius q ml) (hlen : i + q.length ≤ text.length) :
    (i : Int) + q.length ≤ snippetEnd text q ml i ∧
      snippetEnd text q ml i ≤ (text.length : Int) := by
  unfold snippetEnd
  dsimp only
  split
  · split
    · split
      · rename_i hj hsp
        have := lastIndexOfSpaceLe_lt text _ _ hj
        constructor <;> omega
      · constructor <;> omega
    · constructor <;> omega
  · constructor <;> omega

theorem startsWith_slice (lt lq : List Char) (S E i : Nat)
    (hSi : S ≤ i) (hiE : i + lq.length ≤ E)
    (h : startsWithB lq (lt.drop i) = true) :
    startsWithB lq (((lt.drop S).take (E - S)).drop (i - S)) = true := by
  rw [List.drop_take, List.drop_drop]
  have h1 : S + (i - S) = i := by omega
  rw [h1]
  exact startsWithB_take _ _ _ h (by omega)

theorem createSnippet_shape (text q : List Char) (ml index : Nat)
    (hidx : indexOfSub (lowerStr q) (lowerStr text) = some index) :
    createSnippet text q ml =
      (if 0 < snippetStart text q ml index then dots else []) ++
        ((text.drop (snippetStart text q ml index).toNat).take
          (snippetEnd text q ml index - snippetStart text q ml index).toNat ++
        (if snippetEnd text q ml index < (text.length : Int) then dots else [])) := by
  unfold createSnippet
  rw [hidx]
  dsimp only
  split_ifs <;> simp

/-- C8: when the query occurs case-insensitively at `index` and
`maxLength` is at least the query length, `createSnippet` computes
exactly the specification's window — `radius = floor((maxLength -
queryLength)/2)`, `start = max(0, index - radius)`, `end = min(len,
index + queryLength + radius)`, space adjustments only across the match,
`...` exactly on the truncated sides — and the resulting snippet always
contains an occurrence of the query; on text `abcdefghij`, query `e`,
`maxLength` 4 the computation yields `...def...`, containing `e`. -/
theorem c8_snippet (text searchTerm : List Char) (maxLength index : Nat)
    (hidx : indexOfSub (lowerStr searchTerm) (lowerStr text) = some index)
    (hml : searchTerm.length ≤ maxLength) :
    createSnippet text searchTerm maxLength =
        snippetSpec text searchTerm maxLength index ∧
      containsSub (lowerStr searchTerm)
        (lowerStr (createSnippet text searchTerm maxLength)) = true ∧
      createSnippet exText exQuery 4 =
        ['.', '.', '.', 'd', 'e', 'f', '.', '.', '.'] := by
  have hrad := snippetRadius_nonneg searchTerm maxLength hml
  have hlen : index + searchTerm.length ≤ text.length := by
    have h1 := startsWithB_length_le _ _ (indexOfSub_startsWith _ _ _ hidx)
    rw [List.length_drop, lowerStr_length, lowerStr_length] at h1
    have h2 := indexOfSub_le_length _ _ _ hidx
    rw [lowerStr_length] at h2
    omega
  obtain ⟨hS0, hSle⟩ := snippetStart_bounds text searchTerm maxLength index hrad
  obtain ⟨hEge, hEle⟩ := snippetEnd_bounds text searchTerm maxLength index hrad
    (by omega)
  refine ⟨?_, ?_, by decide⟩
  · rw [createSnippet_shape text searchTerm maxLength index hidx]
    unfold snippetSpec snippetStart snippetEnd snippetRadius
    simp [List.append_assoc]
  · rw [createSnippet_shape text searchTerm maxLength index hidx]
    have hcore : containsSub (lowerStr searchTerm)
        (lowerStr ((text.drop (snippetStart text searchTerm maxLength index).toNat).take
          (snippetEnd text searchTerm maxLength index -
            snippetStart text searchTerm maxLength index).toNat)) = true := by
      have hS' : (snippetStart text searchTerm maxLength index).toNat ≤ index := by
        omega
      have hE' : index + searchTerm.length ≤
          (snippetEnd text searchTerm maxLength index).toNat := by
        omega
      have htake : (snippetEnd text searchTerm maxLength index -
          snippetStart text searchTerm maxLength index).toNat =
          (snippetEnd text searchTerm maxLength index).toNat -
            (snippetStart text searchTerm maxLength index).toNat := by
        omega
      rw [htake]
      unfold lowerStr
      rw [List.map_take, List.map_drop]
      apply containsSub_of_startsWith _ _
        (index - (snippetStart text searchTerm maxLength index).toNat)
      apply startsWith_slice
      · exact hS'
      · rw [List.length_map]
        exact hE'
      · exact indexOfSub_startsWith _ _ _ hidx
    unfold lowerStr at hcore ⊢
    rw [List.map_append, List.map_append]
    apply containsSub_append_left
    apply containsSub_append_right
    exact hcore

/-- C8 witness: the concrete example discharges both hypotheses, the
snippet equals the specification's value and contains the query. -/
theorem c8_snippet_witness :
    indexOfSub (lowerStr exQuery) (lowerStr exText) = some 4 ∧
      exQuery.length ≤ 4 ∧
      (createSnippet exText exQuery 4 = snippetSpec exText exQuery 4 4 ∧
        containsSub (lowerStr exQuery) (lowerStr (createSnippet exText exQuery 4)) =
          true ∧
        createSnippet exText exQuery 4 =
          ['.', '.', '.', 'd', 'e', 'f', '.', '.', '.']) :=
  ⟨by decide, by decide, c8_snippet exText exQuery 4 4 (by decide) (by decide)⟩

end Mythril
